import Mathlib

/-!
Shallow embedding of bundle-analyzer-cli (`src/index.js`).

The script reads the chart data of a bundle-analyzer report, flattens the tree
of size nodes into file entries, reconciles the entry paths with the pnpm store
layout, groups the files by installed package and the packages by declared
name, and reports duplicate and unique packages.

Modelling conventions.

* A JavaScript string is a `String`; the string algorithms work on its list of
  characters.  The regular expressions of the script only mention ASCII
  characters, so matching on characters and on UTF-16 code units agree.
* A JavaScript number that holds a byte count is an `Int`.  `Option Int` is used
  for a value that may be `undefined` (a missing JSON field) and for the result
  of an addition, where `none` stands for a value that is not a finite number
  (`NaN` or an infinity).
* Additions and the division of the script are those of JavaScript numbers:
  the exact result rounded to IEEE 754 binary64 (`binary64`).  An integer
  field of the chart data is taken to be a binary64 number.
* `groupBy`, `sortBy` and `reverse` come from lodash and `split`, `replace`,
  `includes`, `startsWith` from the language; they are modelled from their
  documented behaviour.  An object is the list of its properties in
  insertion order; `ownEntries` gives the order in which they are enumerated.
* `JSON.parse` and the file system are parameters of the run (`Host`,
  `FileSystem`).  Standard output is recorded up to the point where the
  report starts, which is all of it for a run that fails.
-/

namespace BundleAnalyzer

/-! ## Data model -/

/-- A node of the parsed chart data: the JSON fields `path`, `parsedSize`,
`statSize` and `groups`, each of which may be missing. -/
inductive SizeNode where
  | mk (path : Option String) (parsedSize : Option Int) (statSize : Option Int)
      (groups : Option (List SizeNode))

/-- The object literal `{ path, size }` built by `getItems`. -/
structure FileEntry where
  path : String
  size : Option Int
deriving DecidableEq

/-! ## Tree flattener (`src/index.js` lines 28-41) -/

/-- Truthiness of a numeric field: `undefined` and `0` are falsy. -/
def truthyNum : Option Int → Bool
  | some n => n != 0
  | none => false

/-- The expression `a || b` on numeric fields. -/
def orNum (a b : Option Int) : Option Int := if truthyNum a then a else b

mutual
/-- The function `getItems(group)`: a node whose `groups` is a non-empty array
is expanded into its children; otherwise a truthy `path` gives one entry. -/
def getItems : SizeNode → List FileEntry
  | .mk path parsedSize statSize groups =>
    match groups with
    | some (g :: gs) => getItemsFromGroups (g :: gs)
    | _ =>
      match path with
      | some p => if p ≠ "" then [⟨p, orNum parsedSize statSize⟩] else []
      | none => []
/-- The function `getItemsFromGroups(groups)`, that is `groups.flatMap(getItems)`. -/
def getItemsFromGroups : List SizeNode → List FileEntry
  | [] => []
  | g :: gs => getItems g ++ getItemsFromGroups gs
end

mutual
/-- Number of leaf nodes (no `groups`, or an empty `groups`) of a tree whose
`path` field is defined. -/
def definedPathLeaves : SizeNode → Nat
  | .mk path _ _ groups =>
    match groups with
    | some (g :: gs) => definedPathLeavesList (g :: gs)
    | _ => if path.isSome then 1 else 0
/-- Number of leaf nodes with a defined `path` in a forest. -/
def definedPathLeavesList : List SizeNode → Nat
  | [] => 0
  | g :: gs => definedPathLeaves g + definedPathLeavesList gs
end

mutual
/-- Number of leaf nodes of a tree whose `path` is defined and not the empty
string. -/
def nonEmptyPathLeaves : SizeNode → Nat
  | .mk path _ _ groups =>
    match groups with
    | some (g :: gs) => nonEmptyPathLeavesList (g :: gs)
    | _ =>
      match path with
      | some p => if p ≠ "" then 1 else 0
      | none => 0
/-- Number of leaf nodes with a defined, non-empty `path` in a forest. -/
def nonEmptyPathLeavesList : List SizeNode → Nat
  | [] => 0
  | g :: gs => nonEmptyPathLeaves g + nonEmptyPathLeavesList gs
end

/-! ## Path reconciler (`src/index.js` lines 45-61) -/

/-- The character class `[0-9]`. -/
def isDigit (c : Char) : Bool := decide ('0' ≤ c) && decide (c ≤ '9')

/-- One attempt to match `/ \+ [0-9]+ modules \(concatenated\)/` at the start of
`s`; the result is the number of characters matched.  The greedy digit run is
followed by a space, which is not a digit, so no shorter run can match. -/
def concatenatedRegex (s : List Char) : Option Nat :=
  if " + ".data.isPrefixOf s then
    let ds := (s.drop 3).takeWhile isDigit
    if ds ≠ [] ∧ " modules (concatenated)".data.isPrefixOf ((s.drop 3).dropWhile isDigit) then
      some (3 + ds.length + 23)
    else none
  else none

/-- Put a character in front of the first component of a split. -/
def consHead (c : Char) : List (List Char) → List (List Char)
  | [] => [[c]]
  | h :: t => (c :: h) :: t

/-- The loop of `String.prototype.split` for `concatenatedRegex`: `splitFrom s k`
splits `s` after skipping its first `k` characters, which belong to a match
already found.  At each position a match closes the current component and
its characters are skipped; otherwise the character joins the component. -/
def splitFrom : List Char → Nat → List (List Char)
  | [], _ => [[]]
  | _ :: cs, k + 1 => splitFrom cs k
  | c :: cs, 0 =>
    match concatenatedRegex (c :: cs) with
    | some n => [] :: splitFrom cs (n - 1)
    | none => consHead c (splitFrom cs 0)

/-- The call `path.split(concatenatedRegex)`. -/
def split (s : List Char) : List (List Char) := splitFrom s 0

/-- The destructuring `[concatenated, submodules] = path.split(...)` followed by
the conditional `submodules ? "." + submodules : concatenated`; `submodules` is
falsy when it is missing or the empty string. -/
def splitRewrite (path : List Char) : List Char :=
  match split path with
  | concatenated :: submodules :: _ =>
    if submodules ≠ [] then '.' :: submodules else concatenated
  | [concatenated] => concatenated
  | [] => []

/-- The callback of the `flatMap` at lines 48-54. -/
def splitAndRewrite (item : FileEntry) : FileEntry :=
  { path := String.mk (splitRewrite item.path.data), size := item.size }

/-- The method `String.prototype.includes`. -/
def includes : List Char → List Char → Bool
  | [], sub => sub.isPrefixOf []
  | c :: cs, sub => sub.isPrefixOf (c :: cs) || includes cs sub

/-- The predicate of the `filter` at line 55. -/
def inDependencyTree (x : FileEntry) : Bool :=
  includes x.path.data "./node_modules/.pnpm/".data

/-- The characters that `.` does not match in a regular expression. -/
def isLineTerminator (c : Char) : Bool :=
  c = '\n' || c = '\r' || c = Char.ofNat 0x2028 || c = Char.ofNat 0x2029

/-- The match of `/^.*?node_modules/` on `s`: the lazy `.*?` takes one more
character, never a line terminator, until `node_modules` follows.  The result
is the text after the match. -/
def lazyNodeModules : List Char → Option (List Char)
  | [] => none
  | c :: cs =>
    if "node_modules".data.isPrefixOf (c :: cs) then some ((c :: cs).drop 12)
    else if isLineTerminator c then none
    else lazyNodeModules cs

/-- The call `path.replace(/^.*?node_modules/, "./node_modules")`. -/
def replaceNodeModules (s : List Char) : List Char :=
  match lazyNodeModules s with
  | some rest => "./node_modules".data ++ rest
  | none => s

/-- The callback of the `map` at lines 58-61. -/
def normalise (item : FileEntry) : FileEntry :=
  { item with path := String.mk (replaceNodeModules item.path.data) }

/-- The constant `items` as a function of `allItems`. -/
def items (allItems : List FileEntry) : List FileEntry :=
  ((allItems.flatMap fun item => [splitAndRewrite item]).filter inDependencyTree).map normalise

/-- No position of `s` starts a match of `concatenatedRegex`. -/
def NoMatch (s : List Char) : Prop := ∀ t, t <:+ s → concatenatedRegex t = none

/-! ## Chart data, validation and package resolution (`src/index.js` lines 43, 63-98) -/

/-- The fields `name` and `version` read from a parsed `package.json`; both are
taken to be strings. -/
structure Manifest where
  name : String
  version : String
deriving DecidableEq

/-- The file system as the script sees it: `fs.existsSync(path)`, and
`JSON.parse(fs.readFileSync(file, "utf8"))` for a manifest file, which is `none`
when reading or parsing throws. -/
structure FileSystem where
  existsSync : String → Bool
  readManifest : String → Option Manifest

/-- The exceptions that abort the run: the `TypeError` of calling `flatMap` on
a value that is not an array, the three errors thrown by the validation loop,
the `TypeError` of `exec(...)[0]` on a path without a match, a manifest that
cannot be read or parsed, and, in the report loader, a bundle that cannot be
read, the `TypeError` of `exec(...)[1]` when the marker pattern is missing,
and the `SyntaxError` of `JSON.parse`. -/
inductive Error where
  | notAnArray
  | doesNotExist (path : String)
  | notInNodeModules (path : String)
  | notValidItem (path : String)
  | unresolvableEntry
  | manifestUnreadable (file : String)
  | bundleUnreadable
  | markerMissing
  | invalidJson
deriving DecidableEq

/-- The value `dataParsed`: a JSON array of nodes, a JSON object, or a scalar
(number, string, boolean or null). -/
inductive ChartData where
  | array (groups : List SizeNode)
  | object (node : SizeNode)
  | scalar

/-- The constant `allItems`, `getItemsFromGroups(dataParsed)`: only an array has
a `flatMap` method. -/
def allItems : ChartData → Except Error (List FileEntry)
  | .array groups => .ok (getItemsFromGroups groups)
  | .object _ => .error .notAnArray
  | .scalar => .error .notAnArray

/-- The method `String.prototype.startsWith`. -/
def startsWith (s pre : List Char) : Bool := pre.isPrefixOf s

/-- The body of the validation loop at lines 63-75 for one item. -/
def validateItem (fs : FileSystem) (item : FileEntry) : Except Error Unit :=
  if !fs.existsSync item.path then .error (.doesNotExist item.path)
  else if !startsWith item.path.data "./node_modules/.pnpm/".data then
    .error (.notInNodeModules item.path)
  else if item.path.data = [] then .error (.notValidItem item.path)
  else .ok ()

/-- The loop `items.forEach(...)` at lines 63-75: the first failing item throws. -/
def validate (fs : FileSystem) : List FileEntry → Except Error Unit
  | [] => .ok ()
  | item :: rest =>
    match validateItem fs item with
    | .error e => .error e
    | .ok _ => validate fs rest

/-- The character class `[\.A-Za-z0-9-+_]`. -/
def isNameChar (c : Char) : Bool :=
  c = '.' || (decide ('A' ≤ c) && decide (c ≤ 'Z')) || (decide ('a' ≤ c) && decide (c ≤ 'z'))
    || (decide ('0' ≤ c) && decide (c ≤ '9')) || c = '-' || c = '+' || c = '_'

/-- The character class `[@\.A-Za-z0-9-+_]`. -/
def isKeyChar (c : Char) : Bool := c = '@' || isNameChar c

/-- Match a literal at the start of `s` and return what follows it. -/
def stripLiteral (lit s : List Char) : Option (List Char) :=
  if lit.isPrefixOf s then some (s.drop lit.length) else none

/-- The alternative `(@[\.A-Za-z0-9-+_]+)\/([\.A-Za-z0-9-+_]+)` at the start of
a string; the result is the number of characters matched.  Each greedy run
is followed by a character outside its class, so no shorter run can match. -/
def scopedName : List Char → Option Nat
  | '@' :: r =>
    let scope := r.takeWhile isNameChar
    if scope = [] then none
    else
      match r.dropWhile isNameChar with
      | '/' :: r' =>
        let name := r'.takeWhile isNameChar
        if name = [] then none else some (1 + scope.length + 1 + name.length)
      | _ => none
  | _ => none

/-- The group `((@scope)/(name))|(name)` of `itemRegex`, the scoped alternative
first. -/
def packageDir (s : List Char) : Option Nat :=
  match scopedName s with
  | some n => some n
  | none =>
    let name := s.takeWhile isNameChar
    if name = [] then none else some name.length

/-- One attempt to match `itemRegex` at the start of `s`; the result is the
number of characters matched. -/
def itemRegexAt (s : List Char) : Option Nat :=
  match stripLiteral "./node_modules/.pnpm/".data s with
  | none => none
  | some r1 =>
    let key := r1.takeWhile isKeyChar
    if key = [] then none
    else
      match stripLiteral "/node_modules/".data (r1.dropWhile isKeyChar) with
      | none => none
      | some r2 =>
        match packageDir r2 with
        | none => none
        | some n => some (21 + key.length + 14 + n)

/-- The expression `itemRegex.exec(path)`: the text of the leftmost match, or
`none` for `null`. -/
def itemRegexExec : List Char → Option (List Char)
  | [] => none
  | c :: cs =>
    match itemRegexAt (c :: cs) with
    | some n => some ((c :: cs).take n)
    | none => itemRegexExec cs

/-- One step of lodash `groupBy`: push `x` on the array stored under `k`, or
store a new array `[x]` under the new key `k`. -/
def groupInsert {α : Type} (k : String) (x : α) :
    List (String × List α) → List (String × List α)
  | [] => [(k, [x])]
  | (k', g) :: rest =>
    if k' = k then (k', g ++ [x]) :: rest else (k', g) :: groupInsert k x rest

/-- The function `groupBy(collection, iteratee)` of lodash; the object it
returns is kept as the list of its properties in insertion order. -/
def groupBy {α : Type} (collection : List α) (iteratee : α → String) :
    List (String × List α) :=
  collection.foldl (fun result x => groupInsert (iteratee x) x result) []

/-- The value of a property key that is an array index: a canonical decimal
numeral below `2^32 - 1`. -/
def arrayIndex (k : String) : Option Nat :=
  let cs := k.data
  if cs ≠ [] ∧ cs.all isDigit = true ∧ (cs = ['0'] ∨ cs.head? ≠ some '0') then
    let n := cs.foldl (fun acc c => 10 * acc + (c.toNat - 48)) 0
    if n < 4294967295 then some n else none
  else none

/-- Order of two array-index keys by numeric value. -/
def indexLe {β : Type} (a b : String × β) : Prop :=
  (arrayIndex a.1).getD 0 ≤ (arrayIndex b.1).getD 0

instance {β : Type} : DecidableRel (@indexLe β) :=
  fun a b => inferInstanceAs (Decidable ((arrayIndex a.1).getD 0 ≤ (arrayIndex b.1).getD 0))

/-- The order in which `Object.keys(obj)` and `for (key in obj)` visit the
properties of an object: array-index keys in ascending numeric order, then
the other keys in insertion order. -/
def ownEntries {β : Type} (obj : List (String × β)) : List (String × β) :=
  (obj.filter fun kv => (arrayIndex kv.1).isSome).insertionSort indexLe
    ++ obj.filter fun kv => !(arrayIndex kv.1).isSome

/-- The iteratee `item => itemRegex.exec(item.path)[0]`; `none` when it throws. -/
def packageKey (item : FileEntry) : Option String :=
  (itemRegexExec item.path.data).map String.mk

/-- The constant `filesByPackage`: `groupBy` calls the iteratee on every item, so
it throws as soon as one path has no match. -/
def filesByPackage (items : List FileEntry) : Except Error (List (String × List FileEntry)) :=
  if items.all (fun item => (packageKey item).isSome) then
    .ok (groupBy items fun item => (packageKey item).getD "")
  else .error .unresolvableEntry

/-- An element of `packageWithVersions`: the object `{ path, name, version,
files }`. -/
structure Package where
  path : String
  name : String
  version : String
  files : List FileEntry
deriving DecidableEq

/-- The `map` at lines 84-98 over the properties of `filesByPackage`. -/
def readPackages (fs : FileSystem) :
    List (String × List FileEntry) → Except Error (List Package)
  | [] => .ok []
  | (path, files) :: rest =>
    match fs.readManifest (path ++ "/package.json") with
    | none => .error (.manifestUnreadable (path ++ "/package.json"))
    | some packageJson =>
      match readPackages fs rest with
      | .error e => .error e
      | .ok ps => .ok (⟨path, packageJson.name, packageJson.version, files⟩ :: ps)

/-- The constant `packageWithVersions`. -/
def packageWithVersions (fs : FileSystem) (filesByPackage : List (String × List FileEntry)) :
    Except Error (List Package) :=
  readPackages fs (ownEntries filesByPackage)

/-- The constant `packagesGroupedByName`. -/
def packagesGroupedByName (packageWithVersions : List Package) :
    List (String × List Package) :=
  groupBy packageWithVersions fun package => package.name

/-! ## Duplicate aggregator and report order (`src/index.js` lines 105-136, 162-186) -/

/-- The integer nearest to `x`; when `x` lies half-way between two integers, the
even one. -/
def roundHalfEven (x : ℚ) : Int :=
  if x - ⌊x⌋ < 1 / 2 then ⌊x⌋
  else if 1 / 2 < x - ⌊x⌋ then ⌊x⌋ + 1
  else if ⌊x⌋ % 2 = 0 then ⌊x⌋ else ⌊x⌋ + 1

/-- The exact result `q` of an arithmetic operation rounded to a JavaScript
number (IEEE 754 binary64, round to nearest, ties to even).  With
`2 ^ e ≤ |q| < 2 ^ (e + 1)`, the result is the multiple of `2 ^ (e - 52)`
nearest to `q` (53 significant bits), and the multiple of `2 ^ (-1074)` in the
subnormal range.  A result of magnitude `2 ^ 1024` or more overflows to an
infinity, which is `none`. -/
def binary64 (q : ℚ) : Option ℚ :=
  if q = 0 then some 0
  else
    let k : Int := max (Int.log 2 |q| - 52) (-1074)
    let r : ℚ := (roundHalfEven (q / 2 ^ k) : ℚ) * 2 ^ k
    if |r| < 2 ^ 1024 then some r else none

/-- The expression `acc + item` on byte counts.  An operand that is `undefined`
or not a finite number gives a result that is not a finite number (`NaN` or
an infinity), which is `none`.  Otherwise the exact sum is rounded to
binary64; the rounded sum of two integers is an integer, which the floor
recovers. -/
def addNum : Option Int → Option Int → Option Int
  | some a, some b => (binary64 ((a + b : Int) : ℚ)).map fun r => ⌊r⌋
  | _, _ => none

/-- The expression `size / n` for an integer `size` and an array length `n`: the
exact quotient rounded to binary64; division by `0` gives an infinity or
`NaN`, which is `none`. -/
def divNum (size : Int) (n : Nat) : Option ℚ :=
  if n = 0 then none else binary64 ((size : ℚ) / (n : ℚ))

/-- The function `sum(items)`. -/
def sum (items : List (Option Int)) : Option Int := items.foldl addNum (some 0)

/-- The function `getPackageSize(package)`. -/
def getPackageSize (package : Package) : Option Int :=
  sum (package.files.map fun file => file.size)

/-- An element of `packageBuckets.duplicates`: the object `{ packages, size,
savings }`; `savings` is a JavaScript number that need not be an integer and
is kept as its exact rational value. -/
structure DuplicateGroup where
  packages : List Package
  size : Option Int
  savings : Option ℚ
deriving DecidableEq

/-- The object `packageBuckets`. -/
structure PackageBuckets where
  duplicates : List DuplicateGroup
  unique : List Package
deriving DecidableEq

/-- The object pushed on `duplicates` at lines 114-120. -/
def mkDuplicate (packages : List Package) : DuplicateGroup :=
  let size := sum (packages.map getPackageSize)
  { packages := packages, size := size, savings := size.bind fun s => divNum s packages.length }

/-- The body of the loop at lines 110-124.  A group made by `groupBy` is never
empty, so `packages[0]` is defined in the `else` branch. -/
def bucketStep (buckets : PackageBuckets) (entry : String × List Package) : PackageBuckets :=
  let packages := entry.2
  if packages.length > 1 then
    { buckets with duplicates := buckets.duplicates ++ [mkDuplicate packages] }
  else
    match packages with
    | p :: _ => { buckets with unique := buckets.unique ++ [p] }
    | [] => buckets

/-- The constant `packageBuckets` after the loop `for (key in
packagesGroupedByName)`. -/
def packageBuckets (packagesGroupedByName : List (String × List Package)) : PackageBuckets :=
  (ownEntries packagesGroupedByName).foldl bucketStep { duplicates := [], unique := [] }

/-- Ascending order of sort keys, with a key that is not a finite number after
every number. -/
def numLe : Option Int → Option Int → Bool
  | _, none => true
  | none, some _ => false
  | some a, some b => decide (a ≤ b)

/-- The function `sortBy(collection, iteratee)` of lodash: a stable sort in
ascending order of the key.  The model is meant for integer keys. -/
def sortBy {α : Type} (collection : List α) (iteratee : α → Option Int) : List α :=
  collection.insertionSort fun a b => numLe (iteratee a) (iteratee b) = true

/-- The function `reverse(array)` of lodash. -/
def reverse {α : Type} (array : List α) : List α := array.reverse

/-- The list walked at lines 162-164. -/
def reportedDuplicates (buckets : PackageBuckets) : List DuplicateGroup :=
  reverse (sortBy buckets.duplicates fun duplicates => duplicates.size)

/-- The list walked at line 186. -/
def reportedUnique (buckets : PackageBuckets) : List Package :=
  reverse (sortBy buckets.unique getPackageSize)

/-- What a run that does not throw has computed: `items`, `packageBuckets` and
the total `sum(items.map((item) => item.size))`. -/
structure Report where
  items : List FileEntry
  packageBuckets : PackageBuckets
  totalSize : Option Int
deriving DecidableEq

/-- The script from line 43 on, as a function of the file system and of
`dataParsed`. -/
def analyze (fs : FileSystem) (dataParsed : ChartData) : Except Error Report :=
  match allItems dataParsed with
  | .error e => .error e
  | .ok all =>
    let its := items all
    match validate fs its with
    | .error e => .error e
    | .ok _ =>
      match filesByPackage its with
      | .error e => .error e
      | .ok byPackage =>
        match packageWithVersions fs byPackage with
        | .error e => .error e
        | .ok pkgs =>
          .ok { items := its
                packageBuckets := packageBuckets (packagesGroupedByName pkgs)
                totalSize := sum (its.map fun item => item.size) }

/-! ## The store-layout pattern read declaratively -/

/-- The text of a package directory: `name`, or `@scope/name`, where scope and
name are non-empty runs of `[\.A-Za-z0-9-+_]`. -/
def IsPackageDir (pkg : List Char) : Prop :=
  (pkg ≠ [] ∧ ∀ c ∈ pkg, isNameChar c = true) ∨
  ∃ scope name : List Char, pkg = '@' :: (scope ++ '/' :: name) ∧ scope ≠ [] ∧ name ≠ [] ∧
    (∀ c ∈ scope, isNameChar c = true) ∧ (∀ c ∈ name, isNameChar c = true)

/-- The path contains a match of the store-layout pattern: somewhere in it
stands `./node_modules/.pnpm/<key>/node_modules/` followed by a package
directory, where `<key>` is a non-empty run of `[@\.A-Za-z0-9-+_]`. -/
def HasStoreLayout (s : List Char) : Prop :=
  ∃ pre key pkg post : List Char,
    s = pre ++ ("./node_modules/.pnpm/".data ++ (key ++ ("/node_modules/".data ++ (pkg ++ post))))
      ∧ key ≠ [] ∧ (∀ c ∈ key, isKeyChar c = true) ∧ IsPackageDir pkg

/-! ## Occurrences read declaratively -/

/-- The first occurrence of the concatenation marker in `pre ++ after` starts
right after `pre` and is `n` characters long: the marker matches at the start
of `after` and at no earlier position. -/
def FirstOccurrence (pre after : List Char) (n : Nat) : Prop :=
  concatenatedRegex after = some n ∧
    ∀ t, t <:+ pre → t ≠ [] → concatenatedRegex (t ++ after) = none

/-- The text `between` is `rest` up to its first occurrence of the
concatenation marker, or all of `rest` when the marker does not occur. -/
def UpToNextOccurrence (rest between : List Char) : Prop :=
  (NoMatch rest ∧ between = rest) ∨
  ∃ after n, rest = between ++ after ∧ FirstOccurrence between after n

/-- The first occurrence of `node_modules` in `pre ++ "node_modules" ++ rest`
starts right after `pre`. -/
def FirstNodeModules (pre rest : List Char) : Prop :=
  ∀ t, t <:+ pre → t ≠ [] → ¬ "node_modules".data <+: t ++ ("node_modules".data ++ rest)

/-! ## Report loader and the run (`src/index.js` lines 10-26) -/

/-- The character class `\s`: white space and line terminators. -/
def isWhiteSpace (c : Char) : Bool :=
  c = '\t' || c = '\n' || c = Char.ofNat 0x0B || c = Char.ofNat 0x0C || c = '\r' || c = ' '
    || c = Char.ofNat 0xA0 || c = Char.ofNat 0x1680
    || (decide (Char.ofNat 0x2000 ≤ c) && decide (c ≤ Char.ofNat 0x200A))
    || c = Char.ofNat 0x2028 || c = Char.ofNat 0x2029 || c = Char.ofNat 0x202F
    || c = Char.ofNat 0x205F || c = Char.ofNat 0x3000 || c = Char.ofNat 0xFEFF

/-- The end `;\s+window\.defaultSizes` of `chartDataRegex` at the start of a
string.  The greedy `\s+` is followed by `w`, which is not white space, so no
shorter run can match. -/
def chartDataTail : List Char → Bool
  | ';' :: r =>
    decide (r.takeWhile isWhiteSpace ≠ [])
      && "window.defaultSizes".data.isPrefixOf (r.dropWhile isWhiteSpace)
  | _ => false

/-- The group `(.*)` of `chartDataRegex` followed by the end of the pattern: the
longest run of characters other than line terminators after which the end of
the pattern matches.  The result is the captured text. -/
def greedyCapture : List Char → Option (List Char)
  | [] => none
  | c :: cs =>
    match (if isLineTerminator c then none else greedyCapture cs) with
    | some captured => some (c :: captured)
    | none => if chartDataTail (c :: cs) then some [] else none

/-- One attempt to match `chartDataRegex`,
`/<script>\s+window\.chartData = (.*);\s+window\.defaultSizes/`, at the start of
`s`; the result is the text captured by the group. -/
def chartDataRegexAt (s : List Char) : Option (List Char) :=
  match stripLiteral "<script>".data s with
  | none => none
  | some r =>
    if r.takeWhile isWhiteSpace = [] then none
    else
      match stripLiteral "window.chartData = ".data (r.dropWhile isWhiteSpace) with
      | none => none
      | some r2 => greedyCapture r2

/-- The expression `chartDataRegex.exec(clientHtml)`: the capture of the leftmost
match, or `none` for `null`. -/
def chartDataRegexExec : List Char → Option (List Char)
  | [] => none
  | c :: cs =>
    match chartDataRegexAt (c :: cs) with
    | some captured => some captured
    | none => chartDataRegexExec cs

/-- What the script is run against: the path `bundlePath` computed from `ROOT`,
`fs.readFileSync(bundlePath, "utf8")` (`none` when it throws), `JSON.parse` on
the captured text (`none` when it throws), and the file system of the later
stages. -/
structure Host where
  bundlePath : String
  readFileSync : String → Option String
  jsonParse : String → Option ChartData
  fs : FileSystem

/-- The two lines written by `console.log` at lines 13-17. -/
def headerLines (bundlePath : String) : List String :=
  ["Analyzing browser bundle from " ++ bundlePath ++ ".",
   "Sizes shown are for minified and tree-shaken files (before compression)."]

/-- The constant `dataParsed` (lines 22-26): read the bundle, drop the line
feeds, take the capture of `chartDataRegex` and parse it. -/
def dataParsed (host : Host) : Except Error ChartData :=
  match host.readFileSync host.bundlePath with
  | none => .error .bundleUnreadable
  | some html =>
    let clientHtml := html.data.filter fun c => c ≠ '\n'
    match chartDataRegexExec clientHtml with
    | none => .error .markerMissing
    | some dataRaw =>
      match host.jsonParse (String.mk dataRaw) with
      | none => .error .invalidJson
      | some parsed => .ok parsed

/-- A run of the script up to line 137: `stdout` holds the lines written to
standard output so far and `result` what has been computed or the exception
that ended the run.  A run that fails ends before line 138, so `stdout` is
then all of its standard output. -/
structure Run where
  stdout : List String
  result : Except Error Report

/-- The script from its first line to line 137. -/
def run (host : Host) : Run :=
  { stdout := headerLines host.bundlePath
    result :=
      match dataParsed host with
      | .error e => .error e
      | .ok parsed => analyze host.fs parsed }

/-! ## Example inputs -/

/-- The file of the spec's lodash example. -/
def lodashIndex : String := "./node_modules/.pnpm/lodash@4.0.0/node_modules/lodash/index.js"

/-- The leaf `{"path": "./node_modules/.pnpm/lodash@4.0.0/node_modules/lodash/index.js",
"parsedSize": 1000}`. -/
def lodashLeaf : SizeNode := .mk (some lodashIndex) (some 1000) none none

/-- The object `{"groups": [lodashLeaf]}`. -/
def lodashPayload : SizeNode := .mk none none none (some [lodashLeaf])

/-- A file system that holds the lodash file and a manifest declaring
`lodash` at version `4.0.0`, and nothing else. -/
def lodashFs : FileSystem where
  existsSync p := p = lodashIndex
  readManifest p :=
    if p = "./node_modules/.pnpm/lodash@4.0.0/node_modules/lodash/package.json" then
      some ⟨"lodash", "4.0.0"⟩
    else none

/-- The entry of the lodash example after reconciliation. -/
def lodashEntry : FileEntry := ⟨lodashIndex, some 1000⟩

/-- The package resolved from the lodash example. -/
def lodash400 : Package :=
  ⟨"./node_modules/.pnpm/lodash@4.0.0/node_modules/lodash", "lodash", "4.0.0", [lodashEntry]⟩

/-- A second install of lodash, at version `4.1.0`, with one file of 500 bytes. -/
def lodash410 : Package :=
  ⟨"./node_modules/.pnpm/lodash@4.1.0/node_modules/lodash", "lodash", "4.1.0",
    [⟨"./node_modules/.pnpm/lodash@4.1.0/node_modules/lodash/index.js", some 500⟩]⟩

/-- The duplicate group of the two lodash installs. -/
def lodashDuplicate : DuplicateGroup :=
  { packages := [lodash400, lodash410], size := some 1500, savings := some 750 }

/-- A package with two files, used to exercise the report order. -/
def reactPackage : Package :=
  ⟨"./node_modules/.pnpm/react@18.2.0/node_modules/react", "react", "18.2.0",
    [⟨"./node_modules/.pnpm/react@18.2.0/node_modules/react/index.js", some 300⟩,
     ⟨"./node_modules/.pnpm/react@18.2.0/node_modules/react/jsx-runtime.js", some 4000⟩]⟩

/-- A path of the dependency tree in which `node_modules` first occurs inside
another directory name. -/
def cachePath : String :=
  "node_modules_cache/./node_modules/.pnpm/b@1.0.0/node_modules/b/index.js"

/-- The path `cachePath` after prefix normalisation. -/
def cachePathNormalised : String :=
  "./node_modules_cache/./node_modules/.pnpm/b@1.0.0/node_modules/b/index.js"

/-- A file system in which the normalised `cachePath` exists and nothing else. -/
def cacheFs : FileSystem where
  existsSync p := p = cachePathNormalised
  readManifest _ := none

/-- A file system that holds two installs of lodash, 4.0.0 and 4.1.0, each with
its `index.js` and its manifest. -/
def twoLodashFs : FileSystem where
  existsSync p :=
    p = lodashIndex || p = "./node_modules/.pnpm/lodash@4.1.0/node_modules/lodash/index.js"
  readManifest p :=
    if p = "./node_modules/.pnpm/lodash@4.0.0/node_modules/lodash/package.json" then
      some ⟨"lodash", "4.0.0"⟩
    else if p = "./node_modules/.pnpm/lodash@4.1.0/node_modules/lodash/package.json" then
      some ⟨"lodash", "4.1.0"⟩
    else none

/-- Chart data with one file of each of the two lodash installs. -/
def twoLodashData : ChartData :=
  .array [lodashLeaf,
    .mk (some "./node_modules/.pnpm/lodash@4.1.0/node_modules/lodash/index.js") (some 500)
      (some 900) none]

/-- Three validated entries of two packages, the files of `react` around the
file of `lodash`. -/
def interleavedEntries : List FileEntry :=
  [⟨"./node_modules/.pnpm/react@18.2.0/node_modules/react/index.js", some 300⟩,
   lodashEntry,
   ⟨"./node_modules/.pnpm/react@18.2.0/node_modules/react/jsx-runtime.js", some 4000⟩]

/-- An entry of the dependency tree with a line break in front of
`node_modules`. -/
def lineBreakEntry : FileEntry :=
  ⟨"src\n/./node_modules/.pnpm/p@1.0.0/node_modules/p/index.js", some 10⟩

/-- A report in which the text assigned to `window.chartData` is not JSON. -/
def brokenReport : String :=
  "<html><script>\n      window.chartData = [oops];\n      window.defaultSizes = \"parsed\";\n</script></html>"

/-- A host whose bundle is `brokenReport`.  Its `jsonParse` stands for
`JSON.parse` on the texts of the examples: it accepts `[]` and rejects every
other text, among them `[oops]`, which `JSON.parse` rejects as well. -/
def brokenHost : Host where
  bundlePath := ".next/analyze/client.html"
  readFileSync p := if p = ".next/analyze/client.html" then some brokenReport else none
  jsonParse text := if text = "[]" then some (.array []) else none
  fs := lodashFs

/-- Three installs of the package `x` with one file each, of 4, 3 and 3 bytes. -/
def threeInstalls : List Package :=
  [⟨"./node_modules/.pnpm/x@1.0.0/node_modules/x", "x", "1.0.0",
      [⟨"./node_modules/.pnpm/x@1.0.0/node_modules/x/index.js", some 4⟩]⟩,
   ⟨"./node_modules/.pnpm/x@2.0.0/node_modules/x", "x", "2.0.0",
      [⟨"./node_modules/.pnpm/x@2.0.0/node_modules/x/index.js", some 3⟩]⟩,
   ⟨"./node_modules/.pnpm/x@3.0.0/node_modules/x", "x", "3.0.0",
      [⟨"./node_modules/.pnpm/x@3.0.0/node_modules/x/index.js", some 3⟩]⟩]

/-- One file of `2 ^ 53` bytes in the package `big` and two files of one byte
in the package `tiny`. -/
def bigEntries : List FileEntry :=
  [⟨"./node_modules/.pnpm/big@1.0.0/node_modules/big/index.js", some 9007199254740992⟩,
   ⟨"./node_modules/.pnpm/tiny@1.0.0/node_modules/tiny/a.js", some 1⟩,
   ⟨"./node_modules/.pnpm/tiny@1.0.0/node_modules/tiny/b.js", some 1⟩]

/-- The package `big` resolved from `bigEntries`. -/
def bigPackage : Package :=
  ⟨"./node_modules/.pnpm/big@1.0.0/node_modules/big", "big", "1.0.0",
    [⟨"./node_modules/.pnpm/big@1.0.0/node_modules/big/index.js", some 9007199254740992⟩]⟩

/-- The package `tiny` resolved from `bigEntries`. -/
def tinyPackage : Package :=
  ⟨"./node_modules/.pnpm/tiny@1.0.0/node_modules/tiny", "tiny", "1.0.0",
    [⟨"./node_modules/.pnpm/tiny@1.0.0/node_modules/tiny/a.js", some 1⟩,
     ⟨"./node_modules/.pnpm/tiny@1.0.0/node_modules/tiny/b.js", some 1⟩]⟩

/-- Chart data whose leaves are the entries of `bigEntries`. -/
def bigData : ChartData :=
  .array [.mk (some "./node_modules/.pnpm/big@1.0.0/node_modules/big/index.js")
            (some 9007199254740992) none none,
          .mk (some "./node_modules/.pnpm/tiny@1.0.0/node_modules/tiny/a.js") (some 1) none none,
          .mk (some "./node_modules/.pnpm/tiny@1.0.0/node_modules/tiny/b.js") (some 1) none none]

/-- A file system in which every file exists and that holds the manifests of
`big` and `tiny`. -/
def bigFs : FileSystem where
  existsSync _ := true
  readManifest p :=
    if p = "./node_modules/.pnpm/big@1.0.0/node_modules/big/package.json" then
      some ⟨"big", "1.0.0"⟩
    else if p = "./node_modules/.pnpm/tiny@1.0.0/node_modules/tiny/package.json" then
      some ⟨"tiny", "1.0.0"⟩
    else none

/-! ## Auxiliary definitions for the proofs -/

/-- One step of `firstKeys`: a key that is new goes to the end. -/
def addKey (acc : List String) (k : String) : List String :=
  if k ∈ acc then acc else acc ++ [k]

/-- The distinct strings of a list in the order of their first occurrence. -/
def firstKeys (ks : List String) : List String := ks.foldl addKey []

/-- The size of an entry as an integer, `0` when it is undefined. -/
def entrySize (item : FileEntry) : Int := item.size.getD 0

/-- The exact sum of the sizes of the files of a package. -/
def packageWeight (package : Package) : Int := (package.files.map entrySize).sum

/-! ## Theorems: tree flattener -/

theorem getItemsFromGroups_eq_flatMap (gs : List SizeNode) :
    getItemsFromGroups gs = gs.flatMap getItems := by
  induction gs with
  | nil => rfl
  | cons g gs ih => rw [getItemsFromGroups, ih, List.flatMap_cons]

theorem getItemsFromGroups_append (xs ys : List SizeNode) :
    getItemsFromGroups (xs ++ ys) = getItemsFromGroups xs ++ getItemsFromGroups ys := by
  simp [getItemsFromGroups_eq_flatMap]

mutual
theorem length_getItems (n : SizeNode) :
    (getItems n).length = nonEmptyPathLeaves n := by
  match n with
  | .mk path parsedSize statSize groups =>
    match groups with
    | some (g :: gs) =>
      rw [getItems, nonEmptyPathLeaves]
      exact length_getItemsFromGroups (g :: gs)
    | some [] =>
      cases path with
      | none => simp [getItems, nonEmptyPathLeaves]
      | some p => by_cases h : p = "" <;> simp [getItems, nonEmptyPathLeaves, h]
    | none =>
      cases path with
      | none => simp [getItems, nonEmptyPathLeaves]
      | some p => by_cases h : p = "" <;> simp [getItems, nonEmptyPathLeaves, h]
theorem length_getItemsFromGroups (gs : List SizeNode) :
    (getItemsFromGroups gs).length = nonEmptyPathLeavesList gs := by
  match gs with
  | [] => rfl
  | g :: gs =>
    rw [getItemsFromGroups, nonEmptyPathLeavesList, List.length_append, length_getItems g,
      length_getItemsFromGroups gs]
end

/-- C1 (as stated, refuted): a leaf whose `path` is the empty string has a
defined path but yields no entry, so the output length is not the number of
leaves with a defined path. -/
theorem C1_defined_path_counterexample :
    (getItemsFromGroups [SizeNode.mk (some "") (some 10) (some 10) none]).length
      ≠ definedPathLeavesList [SizeNode.mk (some "") (some 10) (some 10) none] := by
  decide

/-- C1 (amended): for every forest, the number of entries returned by
`getItemsFromGroups` is the number of leaf nodes whose path is defined and
non-empty; a node with a non-empty children list counts only through its
children. -/
theorem C1_flattener_length (gs : List SizeNode) :
    (getItemsFromGroups gs).length = nonEmptyPathLeavesList gs ∧
    ∀ p ps ss g rest,
      (getItems (SizeNode.mk p ps ss (some (g :: rest)))).length
        = nonEmptyPathLeavesList (g :: rest) :=
  ⟨length_getItemsFromGroups gs, fun p ps ss g rest => by
    rw [getItems]; exact length_getItemsFromGroups (g :: rest)⟩

/-- C2 (code evaluated at the failing input): a leaf with `parsedSize` 0 and
`statSize` 5 is emitted with size 5, not with its present `parsedSize`. -/
theorem C2_parsedSize_zero_falls_back :
    getItems (SizeNode.mk (some "./a.js") (some 0) (some 5) none)
      = [⟨"./a.js", some 5⟩] := by
  decide

/-- C3: `getItemsFromGroups` is the in-order concatenation of the results of
its nodes (depth-first, left to right), and the result of a node with a
non-empty children list is the result of its children list whatever its own
path, parsedSize and statSize are. -/
theorem C3_depth_first_order :
    (∀ gs : List SizeNode, getItemsFromGroups gs = (gs.map getItems).flatten) ∧
    (∀ xs ys : List SizeNode,
      getItemsFromGroups (xs ++ ys) = getItemsFromGroups xs ++ getItemsFromGroups ys) ∧
    (∀ (g : SizeNode) (gs : List SizeNode),
      getItemsFromGroups (g :: gs) = getItems g ++ getItemsFromGroups gs) ∧
    (∀ p ps ss (g : SizeNode) (rest : List SizeNode),
      getItems (SizeNode.mk p ps ss (some (g :: rest))) = getItemsFromGroups (g :: rest)) :=
  ⟨fun gs => by rw [getItemsFromGroups_eq_flatMap]; rfl,
   getItemsFromGroups_append,
   fun g gs => by rw [getItemsFromGroups],
   fun p ps ss g rest => by rw [getItems]⟩

/-! ## Theorems: split-and-rewrite -/

theorem takeWhile_digits_append {ds r : List Char} (hds : ∀ d ∈ ds, isDigit d = true) :
    (ds ++ (' ' :: r)).takeWhile isDigit = ds ∧ (ds ++ (' ' :: r)).dropWhile isDigit = ' ' :: r := by
  induction ds with
  | nil => exact ⟨by simp [List.takeWhile, isDigit], by simp [List.dropWhile, isDigit]⟩
  | cons d ds ih =>
    have hd : isDigit d = true := hds d (List.mem_cons_self _ _)
    have := ih (fun x hx => hds x (List.mem_cons_of_mem _ hx))
    simp [List.takeWhile, List.dropWhile, hd, this.1, this.2]

theorem concatenatedRegex_eq_some {s : List Char} {n : Nat} :
    concatenatedRegex s = some n ↔
      ∃ ds rest, ds ≠ [] ∧ (∀ d ∈ ds, isDigit d = true) ∧
        s = " + ".data ++ (ds ++ (" modules (concatenated)".data ++ rest)) ∧
        n = 3 + ds.length + 23 := by
  constructor
  · intro h
    unfold concatenatedRegex at h
    split at h
    · rename_i h1
      simp only at h
      split at h
      · rename_i h2
        obtain ⟨hne, hlit⟩ := h2
        rw [List.isPrefixOf_iff_prefix] at h1 hlit
        obtain ⟨r1, hr1⟩ := h1
        obtain ⟨r2, hr2⟩ := hlit
        have h3 : s.drop 3 = r1 := by rw [← hr1]; rfl
        refine ⟨(s.drop 3).takeWhile isDigit, r2, hne, ?_, ?_, ?_⟩
        · intro d hd
          exact List.mem_takeWhile_imp hd
        · rw [hr2, List.takeWhile_append_dropWhile, h3, hr1]
        · simpa using h.symm
      · simp at h
    · simp at h
  · rintro ⟨ds, rest, hne, hds, rfl, rfl⟩
    have key := takeWhile_digits_append (r := "modules (concatenated)".data ++ rest) hds
    have hdrop : (" + ".data ++ (ds ++ (" modules (concatenated)".data ++ rest))).drop 3
        = ds ++ (' ' :: ("modules (concatenated)".data ++ rest)) := rfl
    unfold concatenatedRegex
    have hp : " + ".data.isPrefixOf
        (" + ".data ++ (ds ++ (" modules (concatenated)".data ++ rest))) = true := by
      rw [List.isPrefixOf_iff_prefix]; exact List.prefix_append _ _
    rw [if_pos hp]
    simp only [hdrop, key.1, key.2]
    have hq : " modules (concatenated)".data.isPrefixOf
        (' ' :: ("modules (concatenated)".data ++ rest)) = true := by
      rw [List.isPrefixOf_iff_prefix]; exact List.prefix_append _ _
    rw [if_pos ⟨hne, hq⟩]

theorem concatenatedRegex_append {s : List Char} {n : Nat} (u : List Char)
    (h : concatenatedRegex s = some n) : concatenatedRegex (s ++ u) = some n := by
  rw [concatenatedRegex_eq_some] at h ⊢
  obtain ⟨ds, rest, hne, hds, rfl, rfl⟩ := h
  exact ⟨ds, rest ++ u, hne, hds, by simp, rfl⟩

theorem concatenatedRegex_length {s : List Char} {n : Nat}
    (h : concatenatedRegex s = some n) : 1 ≤ n ∧ n ≤ s.length := by
  rw [concatenatedRegex_eq_some] at h
  obtain ⟨ds, rest, _, _, rfl, rfl⟩ := h
  constructor
  · omega
  · simp only [List.length_append]
    have h1 : " + ".data.length = 3 := rfl
    have h2 : " modules (concatenated)".data.length = 23 := rfl
    rw [h1, h2]
    omega

theorem concatenatedRegex_head {c : Char} {cs : List Char} (h : c ≠ ' ') :
    concatenatedRegex (c :: cs) = none := by
  cases hm : concatenatedRegex (c :: cs) with
  | none => rfl
  | some n =>
    rw [concatenatedRegex_eq_some] at hm
    obtain ⟨ds, rest, _, _, heq, _⟩ := hm
    have : c = ' ' := by
      have := congrArg List.head? heq
      simpa using this
    exact absurd this h

theorem noMatch_nil : NoMatch [] := by
  intro t ht
  rw [List.suffix_nil] at ht
  subst ht
  rfl

theorem noMatch_cons {c : Char} {cs : List Char} (h1 : concatenatedRegex (c :: cs) = none)
    (h2 : NoMatch cs) : NoMatch (c :: cs) := by
  intro t ht
  rcases List.suffix_cons_iff.1 ht with rfl | ht
  · exact h1
  · exact h2 t ht

theorem splitFrom_of_noMatch : ∀ s : List Char, NoMatch s → splitFrom s 0 = [s]
  | [], _ => rfl
  | c :: cs, h => by
    have h1 : concatenatedRegex (c :: cs) = none := h _ (List.suffix_refl _)
    have h2 : NoMatch cs := fun t ht => h t (ht.trans (List.suffix_cons _ _))
    rw [splitFrom, h1]
    simp only
    rw [splitFrom_of_noMatch cs h2]
    rfl

theorem splitFrom_skip : ∀ (s : List Char) (k : Nat), k ≤ s.length →
    splitFrom s k = splitFrom (s.drop k) 0
  | _, 0, _ => rfl
  | [], k + 1, h => by simp at h
  | c :: cs, k + 1, h => by
    rw [splitFrom, List.drop_succ_cons]
    exact splitFrom_skip cs k (by simpa using h)

theorem splitFrom_cons_of_match {c : Char} {cs : List Char} {n : Nat}
    (h : concatenatedRegex (c :: cs) = some n) :
    splitFrom (c :: cs) 0 = [] :: splitFrom ((c :: cs).drop n) 0 := by
  have hn := concatenatedRegex_length h
  rw [splitFrom, h]
  simp only
  rw [splitFrom_skip cs (n - 1) (by simp at hn; omega)]
  obtain ⟨m, rfl⟩ : ∃ m, n = m + 1 := ⟨n - 1, by omega⟩
  rfl

theorem splitFrom_cons_of_noMatch {c : Char} {cs : List Char}
    (h : concatenatedRegex (c :: cs) = none) :
    splitFrom (c :: cs) 0 = consHead c (splitFrom cs 0) := by
  rw [splitFrom, h]

theorem split_components (m : Nat) : ∀ s : List Char, s.length ≤ m →
    ∃ h t, splitFrom s 0 = h :: t ∧ h <+: s ∧ NoMatch h ∧ ∀ x ∈ t, NoMatch x := by
  induction m with
  | zero =>
    intro s hs
    have : s = [] := List.length_eq_zero.1 (Nat.le_zero.1 hs)
    subst this
    exact ⟨[], [], rfl, List.prefix_refl _, noMatch_nil, by simp⟩
  | succ m ih =>
    intro s hs
    cases s with
    | nil => exact ⟨[], [], rfl, List.prefix_refl _, noMatch_nil, by simp⟩
    | cons c cs =>
      cases hm : concatenatedRegex (c :: cs) with
      | some n =>
        have hn := concatenatedRegex_length hm
        obtain ⟨h, t, e, _, hh, ht⟩ := ih ((c :: cs).drop n) (by
          simp only [List.length_drop, List.length_cons] at hs hn ⊢; omega)
        refine ⟨[], h :: t, ?_, List.nil_prefix, noMatch_nil, ?_⟩
        · rw [splitFrom_cons_of_match hm, e]
        · intro x hx
          rcases List.mem_cons.1 hx with rfl | hx
          · exact hh
          · exact ht x hx
      | none =>
        obtain ⟨h, t, e, hp, hh, ht⟩ := ih cs (by simpa using hs)
        refine ⟨c :: h, t, ?_, ?_, ?_, ht⟩
        · rw [splitFrom_cons_of_noMatch hm, e]; rfl
        · obtain ⟨r, hr⟩ := hp
          exact ⟨r, by rw [← hr]; rfl⟩
        · refine noMatch_cons ?_ hh
          obtain ⟨r, hr⟩ := hp
          cases hm2 : concatenatedRegex (c :: h) with
          | none => rfl
          | some n =>
            have := concatenatedRegex_append r hm2
            rw [List.cons_append, hr, hm] at this
            exact absurd this (by simp)

theorem splitRewrite_of_noMatch {s : List Char} (h : NoMatch s) : splitRewrite s = s := by
  unfold splitRewrite split
  rw [splitFrom_of_noMatch s h]

theorem noMatch_splitRewrite (s : List Char) : NoMatch (splitRewrite s) := by
  obtain ⟨h, t, e, _, hh, ht⟩ := split_components s.length s le_rfl
  unfold splitRewrite split
  rw [e]
  cases t with
  | nil => exact hh
  | cons h2 t2 =>
    simp only
    split
    · exact noMatch_cons (concatenatedRegex_head (by decide)) (ht h2 (List.mem_cons_self _ _))
    · exact hh

/-- C4: the split-and-rewrite step is idempotent: for every path string (and
every size), applying the step to its own result returns that result
unchanged. -/
theorem C4_splitAndRewrite_idempotent (path : String) (size : Option Int) :
    splitAndRewrite (splitAndRewrite ⟨path, size⟩) = splitAndRewrite ⟨path, size⟩ ∧
    splitRewrite (splitRewrite path.data) = splitRewrite path.data := by
  have h := splitRewrite_of_noMatch (noMatch_splitRewrite path.data)
  exact ⟨by simp only [splitAndRewrite]; rw [h], h⟩

/-! ## Theorems: path reconciler -/

theorem items_singleton (item : FileEntry) :
    items [item] =
      if inDependencyTree (splitAndRewrite item) then [normalise (splitAndRewrite item)]
      else [] := by
  by_cases h : inDependencyTree (splitAndRewrite item) = true <;> simp [items, h]

/-- C5: the entry with path
`./a + 3 modules (concatenated) + ./node_modules/.pnpm/pkg@1.0.0/node_modules/pkg/b.js`
is kept by the path reconciler, which yields exactly the path
`./node_modules/.pnpm/pkg@1.0.0/node_modules/pkg/b.js` with the size unchanged. -/
theorem C5_concatenated_example (size : Option Int) :
    items [⟨"./a + 3 modules (concatenated) + ./node_modules/.pnpm/pkg@1.0.0/node_modules/pkg/b.js",
        size⟩]
      = [⟨"./node_modules/.pnpm/pkg@1.0.0/node_modules/pkg/b.js", size⟩] := by
  have h1 : splitRewrite
      "./a + 3 modules (concatenated) + ./node_modules/.pnpm/pkg@1.0.0/node_modules/pkg/b.js".data
      = ". + ./node_modules/.pnpm/pkg@1.0.0/node_modules/pkg/b.js".data := by rfl
  have h2 : includes ". + ./node_modules/.pnpm/pkg@1.0.0/node_modules/pkg/b.js".data
      "./node_modules/.pnpm/".data = true := by rfl
  have h3 : replaceNodeModules ". + ./node_modules/.pnpm/pkg@1.0.0/node_modules/pkg/b.js".data
      = "./node_modules/.pnpm/pkg@1.0.0/node_modules/pkg/b.js".data := by rfl
  rw [items_singleton]
  simp only [splitAndRewrite, inDependencyTree, normalise, h1, h2, h3, if_true]

/-! ## Theorems: grouping -/

theorem nodup_addKey {acc : List String} (k : String) (h : acc.Nodup) : (addKey acc k).Nodup := by
  unfold addKey
  split
  · exact h
  · rename_i hk
    exact List.nodup_append.2 ⟨h, List.nodup_singleton k, by
      intro a ha hb
      rw [List.mem_singleton] at hb
      exact hk (hb ▸ ha)⟩

theorem mem_addKey {acc : List String} {k a : String} : a ∈ addKey acc k ↔ a ∈ acc ∨ a = k := by
  unfold addKey
  split
  · rename_i hk
    constructor
    · exact Or.inl
    · rintro (h | rfl)
      · exact h
      · exact hk
  · simp

theorem foldl_addKey (ks : List String) : ∀ acc : List String, acc.Nodup →
    (ks.foldl addKey acc).Nodup ∧ ∀ a, a ∈ ks.foldl addKey acc ↔ a ∈ acc ∨ a ∈ ks := by
  induction ks with
  | nil => intro acc h; exact ⟨h, by simp⟩
  | cons k ks ih =>
    intro acc h
    obtain ⟨h1, h2⟩ := ih (addKey acc k) (nodup_addKey k h)
    refine ⟨h1, fun a => ?_⟩
    rw [List.foldl_cons, h2, mem_addKey, List.mem_cons, or_assoc]

theorem nodup_firstKeys (ks : List String) : (firstKeys ks).Nodup :=
  (foldl_addKey ks [] List.nodup_nil).1

theorem mem_firstKeys {ks : List String} {a : String} : a ∈ firstKeys ks ↔ a ∈ ks := by
  unfold firstKeys
  rw [(foldl_addKey ks [] List.nodup_nil).2]
  simp

theorem firstKeys_concat (ks : List String) (k : String) :
    firstKeys (ks ++ [k]) = addKey (firstKeys ks) k := by
  simp [firstKeys, List.foldl_append]

theorem groupInsert_map {α : Type} (k : String) (x : α) (F : String → List α) :
    ∀ ks : List String, ks.Nodup → (k ∉ ks → F k = []) →
      groupInsert k x (ks.map fun j => (j, F j))
        = (addKey ks k).map fun j => (j, if j = k then F j ++ [x] else F j) := by
  intro ks
  induction ks with
  | nil =>
    intro _ hF
    simp [groupInsert, addKey, hF]
  | cons j ks ih =>
    intro hnd hF
    obtain ⟨hj, hnd2⟩ := List.nodup_cons.1 hnd
    by_cases hjk : j = k
    · subst hjk
      have hmem : j ∈ j :: ks := List.mem_cons_self _ _
      simp only [List.map_cons, groupInsert, addKey, hmem, if_true, List.cons.injEq, true_and]
      refine List.map_congr_left fun a ha => ?_
      have : a ≠ j := fun e => hj (e ▸ ha)
      simp [this]
    · have hk : k ∉ ks → F k = [] := fun h => hF (by
        simp only [List.mem_cons, not_or]; exact ⟨fun e => hjk e.symm, h⟩)
      have := ih hnd2 hk
      simp only [List.map_cons, groupInsert, hjk, if_false, this]
      unfold addKey
      by_cases hks : k ∈ ks
      · have : k ∈ j :: ks := List.mem_cons_of_mem _ hks
        simp [hks, this, hjk]
      · have : k ∉ j :: ks := by
          simp only [List.mem_cons, not_or]; exact ⟨fun e => hjk e.symm, hks⟩
        simp [hks, this, hjk]

theorem groupBy_foldl {α : Type} (f : α → String) (rest : List α) : ∀ done : List α,
    rest.foldl (fun result x => groupInsert (f x) x result)
        ((firstKeys (done.map f)).map fun k => (k, done.filter fun x => f x = k))
      = (firstKeys ((done ++ rest).map f)).map
          fun k => (k, (done ++ rest).filter fun x => f x = k) := by
  induction rest with
  | nil => intro done; simp
  | cons x rest ih =>
    intro done
    have hstep : groupInsert (f x) x
        ((firstKeys (done.map f)).map fun k => (k, done.filter fun y => f y = k))
        = (firstKeys ((done ++ [x]).map f)).map
            fun k => (k, (done ++ [x]).filter fun y => f y = k) := by
      rw [groupInsert_map (f x) x (fun k => done.filter fun y => f y = k) _
        (nodup_firstKeys _) ?_]
      · rw [List.map_append, List.map_singleton, firstKeys_concat]
        refine List.map_congr_left fun a _ => ?_
        by_cases h : a = f x
        · simp [h, List.filter_append]
        · have h2 : ¬ f x = a := fun e => h e.symm
          simp [h, h2, List.filter_append]
      · intro hk
        rw [mem_firstKeys] at hk
        refine List.filter_eq_nil_iff.2 fun y hy => ?_
        intro e
        exact hk (List.mem_map.2 ⟨y, hy, of_decide_eq_true e⟩)
    rw [List.foldl_cons, hstep, ih (done ++ [x])]
    simp

/-- The groups built by `groupBy`: one per distinct key, in the order of first
occurrence, each holding the elements with that key in input order. -/
theorem groupBy_eq {α : Type} (xs : List α) (f : α → String) :
    groupBy xs f = (firstKeys (xs.map f)).map fun k => (k, xs.filter fun x => f x = k) := by
  have := groupBy_foldl f xs []
  simpa [groupBy, firstKeys] using this

theorem perm_ownEntries {β : Type} (obj : List (String × β)) : (ownEntries obj).Perm obj := by
  unfold ownEntries
  refine ((List.perm_insertionSort _ _).append_right _).trans ?_
  exact List.filter_append_perm _ obj

theorem mem_groupBy {α : Type} {xs : List α} {f : α → String} {kg : String × List α} :
    kg ∈ groupBy xs f ↔ kg.1 ∈ xs.map f ∧ kg.2 = xs.filter fun x => f x = kg.1 := by
  rw [groupBy_eq, List.mem_map]
  constructor
  · rintro ⟨k, hk, rfl⟩
    exact ⟨mem_firstKeys.1 hk, rfl⟩
  · rintro ⟨h1, h2⟩
    exact ⟨kg.1, mem_firstKeys.2 h1, by rw [← h2]⟩

theorem keys_groupBy {α : Type} (xs : List α) (f : α → String) :
    (groupBy xs f).map Prod.fst = firstKeys (xs.map f) := by
  rw [groupBy_eq, List.map_map]
  exact (List.map_congr_left fun _ _ => rfl).trans (List.map_id _)

theorem group_ne_nil {α : Type} {xs : List α} {f : α → String} {kg : String × List α}
    (h : kg ∈ groupBy xs f) : kg.2 ≠ [] := by
  obtain ⟨h1, h2⟩ := mem_groupBy.1 h
  obtain ⟨x, hx, hfx⟩ := List.mem_map.1 h1
  intro e
  rw [h2, List.filter_eq_nil_iff] at e
  exact e x hx (by simpa using hfx)

theorem perm_flatMap_groupInsert {α : Type} (k : String) (x : α) :
    ∀ acc : List (String × List α),
      ((groupInsert k x acc).flatMap Prod.snd).Perm (acc.flatMap Prod.snd ++ [x])
  | [] => by simp [groupInsert]
  | (j, g) :: rest => by
    by_cases h : j = k
    · simp only [groupInsert, h, if_true, List.flatMap_cons, List.append_assoc]
      exact List.Perm.append_left g List.perm_append_comm
    · simp only [groupInsert, h, if_false, List.flatMap_cons, List.append_assoc]
      exact List.Perm.append_left g (perm_flatMap_groupInsert k x rest)

theorem perm_flatMap_foldl_groupInsert {α : Type} (f : α → String) (xs : List α) :
    ∀ acc : List (String × List α),
      ((xs.foldl (fun result x => groupInsert (f x) x result) acc).flatMap Prod.snd).Perm
        (acc.flatMap Prod.snd ++ xs) := by
  induction xs with
  | nil => intro acc; simp
  | cons x xs ih =>
    intro acc
    rw [List.foldl_cons]
    refine (ih _).trans ?_
    refine ((perm_flatMap_groupInsert (f x) x acc).append_right xs).trans ?_
    simp

theorem perm_flatMap_groupBy {α : Type} (xs : List α) (f : α → String) :
    ((groupBy xs f).flatMap Prod.snd).Perm xs := by
  have := perm_flatMap_foldl_groupInsert f xs []
  simpa [groupBy] using this

/-- C6: grouping the resolved packages by declared name is a partition: the
group names are pairwise distinct, every package of a group has the group's
name, every package of the list lies in exactly one group, the concatenation
of the groups is a permutation of the list, and the enumeration used to fill
the buckets visits exactly these groups. -/
theorem C6_grouping_partition (pkgs : List Package) :
    ((packagesGroupedByName pkgs).map Prod.fst).Nodup ∧
    (∀ kg ∈ packagesGroupedByName pkgs, ∀ p ∈ kg.2, p.name = kg.1) ∧
    (∀ p ∈ pkgs, ∃! kg, kg ∈ packagesGroupedByName pkgs ∧ p ∈ kg.2) ∧
    ((packagesGroupedByName pkgs).flatMap Prod.snd).Perm pkgs ∧
    (ownEntries (packagesGroupedByName pkgs)).Perm (packagesGroupedByName pkgs) ∧
    ((ownEntries (packagesGroupedByName pkgs)).flatMap Prod.snd).Perm pkgs := by
  unfold packagesGroupedByName
  have hmem : ∀ kg ∈ groupBy pkgs (fun package => package.name), ∀ p ∈ kg.2, p.name = kg.1 := by
    intro kg hkg p hp
    rw [(mem_groupBy.1 hkg).2] at hp
    simpa using (List.mem_filter.1 hp).2
  refine ⟨?_, hmem, ?_, perm_flatMap_groupBy _ _, perm_ownEntries _, ?_⟩
  · rw [keys_groupBy]
    exact nodup_firstKeys _
  · intro p hp
    refine ⟨(p.name, pkgs.filter fun x => x.name = p.name), ⟨?_, ?_⟩, ?_⟩
    · exact mem_groupBy.2 ⟨List.mem_map.2 ⟨p, hp, rfl⟩, rfl⟩
    · exact List.mem_filter.2 ⟨hp, by simp⟩
    · rintro ⟨k, g⟩ ⟨hkg, hpg⟩
      have hk : p.name = k := hmem _ hkg p hpg
      have hg := (mem_groupBy.1 hkg).2
      simp only at hg
      rw [hg, hk]
  · exact ((perm_ownEntries _).flatMap_right _).trans (perm_flatMap_groupBy _ _)

/-! ## Theorems: duplicate aggregator -/

theorem foldl_bucketStep (G : List (String × List Package)) : ∀ B : PackageBuckets,
    G.foldl bucketStep B =
      { duplicates := B.duplicates ++
          ((G.map Prod.snd).filter fun g => decide (1 < g.length)).map mkDuplicate
        unique := B.unique ++
          ((G.map Prod.snd).filter fun g => !decide (1 < g.length)).flatMap
            fun g => g.head?.toList } := by
  induction G with
  | nil => intro B; simp
  | cons kg G ih =>
    intro B
    rw [List.foldl_cons, ih]
    by_cases h : 1 < kg.2.length
    · simp [bucketStep, h]
    · cases hg : kg.2 with
      | nil => simp [bucketStep, hg]
      | cons p ps =>
        have h2 : ¬ 1 < (p :: ps).length := hg ▸ h
        simp only [bucketStep, hg, gt_iff_lt, h2, if_false, List.map_cons,
          decide_False, Bool.not_false, List.filter_cons_of_pos, List.flatMap_cons, List.head?_cons,
          Option.toList_some, List.singleton_append, List.append_assoc, Bool.false_eq_true,
          not_false_eq_true, List.filter_cons_of_neg]

theorem duplicates_packageBuckets (grouped : List (String × List Package)) :
    (packageBuckets grouped).duplicates =
      (((ownEntries grouped).map Prod.snd).filter fun g => decide (1 < g.length)).map
        mkDuplicate := by
  simp [packageBuckets, foldl_bucketStep]

theorem unique_packageBuckets (grouped : List (String × List Package)) :
    (packageBuckets grouped).unique =
      (((ownEntries grouped).map Prod.snd).filter fun g => !decide (1 < g.length)).flatMap
        fun g => g.head?.toList := by
  simp [packageBuckets, foldl_bucketStep]

theorem mem_duplicates {grouped : List (String × List Package)} {d : DuplicateGroup} :
    d ∈ (packageBuckets grouped).duplicates ↔
      ∃ kg ∈ grouped, 1 < kg.2.length ∧ d = mkDuplicate kg.2 := by
  rw [duplicates_packageBuckets]
  simp only [List.mem_map, List.mem_filter, decide_eq_true_eq]
  constructor
  · rintro ⟨g, ⟨⟨kg, hkg, rfl⟩, hlen⟩, rfl⟩
    exact ⟨kg, (perm_ownEntries grouped).mem_iff.1 hkg, hlen, rfl⟩
  · rintro ⟨kg, hkg, hlen, rfl⟩
    exact ⟨kg.2, ⟨⟨kg, (perm_ownEntries grouped).mem_iff.2 hkg, rfl⟩, hlen⟩, rfl⟩

theorem mem_unique {grouped : List (String × List Package)} {p : Package} :
    p ∈ (packageBuckets grouped).unique ↔
      ∃ kg ∈ grouped, ¬ 1 < kg.2.length ∧ kg.2.head? = some p := by
  rw [unique_packageBuckets]
  simp only [List.mem_flatMap, List.mem_filter, List.mem_map, Bool.not_eq_true',
    decide_eq_false_iff_not, Option.mem_toList, Option.mem_def]
  constructor
  · rintro ⟨g, ⟨⟨kg, hkg, rfl⟩, hlen⟩, hp⟩
    exact ⟨kg, (perm_ownEntries grouped).mem_iff.1 hkg, hlen, hp⟩
  · rintro ⟨kg, hkg, hlen, hp⟩
    exact ⟨kg.2, ⟨⟨kg, (perm_ownEntries grouped).mem_iff.2 hkg, rfl⟩, hlen⟩, hp⟩

theorem length_buckets (grouped : List (String × List Package))
    (hne : ∀ kg ∈ grouped, kg.2 ≠ []) :
    (packageBuckets grouped).unique.length + (packageBuckets grouped).duplicates.length
      = grouped.length := by
  rw [duplicates_packageBuckets, unique_packageBuckets, ← (perm_ownEntries grouped).length_eq]
  have hne2 : ∀ kg ∈ ownEntries grouped, kg.2 ≠ [] := fun kg h =>
    hne kg ((perm_ownEntries grouped).mem_iff.1 h)
  generalize ownEntries grouped = G at hne2
  induction G with
  | nil => simp
  | cons kg G ih =>
    have ih2 := ih fun kg h => hne2 kg (List.mem_cons_of_mem _ h)
    have h0 := hne2 kg (List.mem_cons_self _ _)
    by_cases h : 1 < kg.2.length
    · have e1 : decide (1 < kg.2.length) = true := decide_eq_true h
      simp only [List.map_cons, List.filter_cons, e1, Bool.not_true, if_true, List.length_cons,
        Bool.false_eq_true, if_false] at ih2 ⊢
      omega
    · cases hg : kg.2 with
      | nil => exact absurd hg h0
      | cons p ps =>
        have e1 : decide (1 < ps.length + 1) = false :=
          decide_eq_false (by rw [hg] at h; simpa using h)
        simp only [List.map_cons, List.filter_cons, e1, Bool.not_false, if_true, List.length_cons,
          Bool.false_eq_true, if_false, List.flatMap_cons, hg, List.head?_cons,
          Option.toList_some, List.singleton_append] at ih2 ⊢
        omega

theorem length_firstKeys (ks : List String) : (firstKeys ks).length = ks.toFinset.card := by
  rw [← List.toFinset_card_of_nodup (nodup_firstKeys ks)]
  congr 1
  ext a
  simp [mem_firstKeys]

/-- C7: a name group is placed in `packageBuckets.duplicates` if and only if it
has more than one install, one of its packages is placed in
`packageBuckets.unique` if and only if it has exactly one install, and
`unique.length + duplicates.length` is the number of distinct declared names. -/
theorem C7_buckets_iff (pkgs : List Package) :
    (∀ kg ∈ packagesGroupedByName pkgs,
      ((∃ d ∈ (packageBuckets (packagesGroupedByName pkgs)).duplicates, d.packages = kg.2)
        ↔ 1 < kg.2.length) ∧
      ((∃ p ∈ kg.2, p ∈ (packageBuckets (packagesGroupedByName pkgs)).unique)
        ↔ kg.2.length = 1)) ∧
    (packageBuckets (packagesGroupedByName pkgs)).unique.length
        + (packageBuckets (packagesGroupedByName pkgs)).duplicates.length
      = (pkgs.map fun package => package.name).toFinset.card := by
  constructor
  · intro kg hkg
    constructor
    · constructor
      · rintro ⟨d, hd, hdk⟩
        obtain ⟨kg2, _, hlen, rfl⟩ := mem_duplicates.1 hd
        rw [← hdk]
        exact hlen
      · intro hlen
        exact ⟨mkDuplicate kg.2, mem_duplicates.2 ⟨kg, hkg, hlen, rfl⟩, rfl⟩
    · constructor
      · rintro ⟨p, hp, hpu⟩
        obtain ⟨kg2, hkg2, hlen, hhead⟩ := mem_unique.1 hpu
        have hp2 : p ∈ kg2.2 := List.mem_of_mem_head? hhead
        have e1 := (mem_groupBy.1 hkg).2
        have e2 := (mem_groupBy.1 hkg2).2
        have n1 : p.name = kg.1 := by
          rw [e1] at hp
          simpa using (List.mem_filter.1 hp).2
        have n2 : p.name = kg2.1 := by
          rw [e2] at hp2
          simpa using (List.mem_filter.1 hp2).2
        have e3 : kg.2 = kg2.2 := by rw [e1, e2, ← n1, ← n2]
        have hne : kg.2 ≠ [] := group_ne_nil hkg
        have hpos : 0 < kg.2.length := List.length_pos.2 hne
        rw [← e3] at hlen
        omega
      · intro hlen
        obtain ⟨p, hp⟩ := List.length_eq_one.1 hlen
        refine ⟨p, by rw [hp]; exact List.mem_singleton_self p, ?_⟩
        exact mem_unique.2 ⟨kg, hkg, by omega, by rw [hp]; rfl⟩
  · unfold packagesGroupedByName
    rw [length_buckets _ fun kg h => group_ne_nil h]
    rw [← List.length_map (groupBy pkgs fun package => package.name) Prod.fst, keys_groupBy,
      length_firstKeys]

/-! ## Theorems: binary64 arithmetic -/

theorem roundHalfEven_intCast (z : Int) : roundHalfEven (z : ℚ) = z := by
  unfold roundHalfEven
  rw [Int.floor_intCast, sub_self, if_pos (by norm_num)]

theorem roundHalfEven_of_gt {x : ℚ} {f : Int} (h1 : 1 / 2 < x - f) (h2 : x < f + 1) :
    roundHalfEven x = f + 1 := by
  have hf : ⌊x⌋ = f := Int.floor_eq_iff.2 ⟨by linarith, h2⟩
  unfold roundHalfEven
  rw [hf, if_neg (not_lt.2 h1.le), if_pos h1]

theorem roundHalfEven_of_tie_even {x : ℚ} {f : Int} (h1 : x - f = 1 / 2) (h2 : f % 2 = 0) :
    roundHalfEven x = f := by
  have hf : ⌊x⌋ = f := Int.floor_eq_iff.2 ⟨by linarith, by linarith⟩
  unfold roundHalfEven
  rw [hf, if_neg (by rw [h1]; exact lt_irrefl _), if_neg (by rw [h1]; exact lt_irrefl _),
    if_pos h2]

theorem log_two_eq {q : ℚ} {e : Int} (hq : 0 < q) (h1 : (2 : ℚ) ^ e ≤ q)
    (h2 : q < (2 : ℚ) ^ (e + 1)) : Int.log 2 q = e := by
  have a : e ≤ Int.log 2 q := (Int.zpow_le_iff_le_log (by norm_num) hq).1 (by exact_mod_cast h1)
  have b : Int.log 2 q < e + 1 :=
    (Int.lt_zpow_iff_log_lt (by norm_num) hq).1 (by exact_mod_cast h2)
  omega

/-- The value of `binary64` on a positive number whose binade is known. -/
theorem binary64_of_binade {q : ℚ} {e m : Int} (hq : 0 < q) (h1 : (2 : ℚ) ^ e ≤ q)
    (h2 : q < (2 : ℚ) ^ (e + 1)) (hk : -1074 ≤ e - 52)
    (hm : roundHalfEven (q / 2 ^ (e - 52)) = m)
    (hfin : |(m : ℚ) * 2 ^ (e - 52)| < 2 ^ 1024) :
    binary64 q = some ((m : ℚ) * 2 ^ (e - 52)) := by
  unfold binary64
  rw [if_neg (ne_of_gt hq), abs_of_pos hq, log_two_eq hq h1 h2, max_eq_left hk]
  simp only [hm]
  rw [if_pos hfin]

/-- Integers of magnitude at most `2 ^ 53` are binary64 numbers. -/
theorem binary64_intCast {n : Int} (h : |n| ≤ 2 ^ 53) : binary64 (n : ℚ) = some (n : ℚ) := by
  by_cases h0 : n = 0
  · subst h0
    simp [binary64]
  have hq : (n : ℚ) ≠ 0 := by exact_mod_cast h0
  have habs : (0 : ℚ) < |(n : ℚ)| := abs_pos.2 hq
  have hle : |(n : ℚ)| ≤ 2 ^ 53 := by
    have : ((|n| : Int) : ℚ) ≤ ((2 ^ 53 : Int) : ℚ) := by exact_mod_cast h
    simpa using this
  have hone : (1 : ℚ) ≤ |(n : ℚ)| := by
    have : (1 : Int) ≤ |n| := Int.one_le_abs h0
    have : ((1 : Int) : ℚ) ≤ ((|n| : Int) : ℚ) := by exact_mod_cast this
    simpa using this
  have he0 : 0 ≤ Int.log 2 |(n : ℚ)| :=
    (Int.zpow_le_iff_le_log (by norm_num) habs).1 (by simpa using hone)
  have he1 : Int.log 2 |(n : ℚ)| < 54 :=
    (Int.lt_zpow_iff_log_lt (by norm_num) habs).1 (by
      have : (2 : ℚ) ^ 53 < 2 ^ (54 : ℤ) := by norm_num
      exact lt_of_le_of_lt hle (by exact_mod_cast this))
  have hpow := Int.zpow_log_le_self (R := ℚ) (b := 2) (by norm_num) habs
  have hz : ∃ z : Int, (n : ℚ) / 2 ^ (max (Int.log 2 |(n : ℚ)| - 52) (-1074)) = z := by
    rw [max_eq_left (by omega)]
    by_cases he : Int.log 2 |(n : ℚ)| ≤ 52
    · refine ⟨n * 2 ^ (52 - Int.log 2 |(n : ℚ)|).toNat, ?_⟩
      have e1 : (2 : ℚ) ^ (Int.log 2 |(n : ℚ)| - 52)
          = ((2 : ℚ) ^ (52 - Int.log 2 |(n : ℚ)|).toNat)⁻¹ := by
        rw [← zpow_natCast, Int.toNat_of_nonneg (by omega), ← zpow_neg]
        congr 1
        omega
      rw [e1]
      push_cast
      rw [div_inv_eq_mul]
    · have he53 : Int.log 2 |(n : ℚ)| = 53 := by omega
      rw [he53] at hpow ⊢
      have habs53 : |(n : ℚ)| = 2 ^ 53 := le_antisymm hle (by exact_mod_cast hpow)
      rcases abs_cases (n : ℚ) with ⟨e, _⟩ | ⟨e, _⟩
      · rw [e] at habs53
        exact ⟨2 ^ 52, by rw [habs53]; norm_num⟩
      · rw [e] at habs53
        have : (n : ℚ) = -2 ^ 53 := by linarith
        exact ⟨-2 ^ 52, by rw [this]; norm_num⟩
  obtain ⟨z, hz⟩ := hz
  unfold binary64
  rw [if_neg hq]
  simp only [hz, roundHalfEven_intCast]
  have hback : (z : ℚ) * 2 ^ (max (Int.log 2 |(n : ℚ)| - 52) (-1074)) = n := by
    rw [← hz, div_mul_cancel₀]
    exact zpow_ne_zero _ (by norm_num)
  rw [hback, if_pos (lt_of_le_of_lt hle (by norm_num))]

/-- An addition whose exact result has magnitude at most `2 ^ 53` is exact. -/
theorem addNum_exact {a b : Int} (h : |a + b| ≤ 2 ^ 53) :
    addNum (some a) (some b) = some (a + b) := by
  show (binary64 ((a + b : Int) : ℚ)).map (fun r => ⌊r⌋) = _
  rw [binary64_intCast h, Option.map_some', Int.floor_intCast]

/-- A division whose exact result is an integer of magnitude at most `2 ^ 53`
is exact. -/
theorem divNum_exact {s : Int} {n : Nat} (hn : n ≠ 0) (hdvd : (n : Int) ∣ s)
    (h : |s| ≤ 2 ^ 53) : divNum s n = some ((s : ℚ) / (n : ℚ)) := by
  obtain ⟨c, rfl⟩ := hdvd
  have hn' : (n : ℚ) ≠ 0 := by exact_mod_cast hn
  have e : (((n : Int) * c : Int) : ℚ) / (n : ℚ) = (c : ℚ) := by
    push_cast
    rw [mul_comm, mul_div_assoc, div_self hn', mul_one]
  have hc : |c| ≤ 2 ^ 53 := by
    have h1 : |c| ≤ |(n : Int) * c| := by
      rw [abs_mul]
      have : (1 : Int) ≤ |(n : Int)| := Int.one_le_abs (by exact_mod_cast hn)
      nlinarith [abs_nonneg c]
    exact le_trans h1 h
  unfold divNum
  rw [if_neg hn, e, binary64_intCast hc]

/-- The sum `2 ^ 53 + 1` lies half-way between two binary64 numbers and is
rounded to the even one, `2 ^ 53`. -/
theorem addNum_tie : addNum (some 9007199254740992) (some 1) = some 9007199254740992 := by
  have hm : roundHalfEven ((9007199254740993 : ℚ) / 2 ^ ((53 : Int) - 52))
      = 4503599627370496 :=
    roundHalfEven_of_tie_even (by norm_num) (by norm_num)
  have h := binary64_of_binade (q := 9007199254740993) (e := 53) (m := 4503599627370496)
    (by norm_num) (by norm_num) (by norm_num) (by norm_num) hm (by norm_num)
  show (binary64 (((9007199254740992 : Int) + 1 : Int) : ℚ)).map (fun r => ⌊r⌋) = _
  have e : (((9007199254740992 : Int) + 1 : Int) : ℚ) = 9007199254740993 := by norm_num
  rw [e, h, Option.map_some']
  have e2 : ((4503599627370496 : Int) : ℚ) * 2 ^ ((53 : Int) - 52)
      = ((9007199254740992 : Int) : ℚ) := by norm_num
  rw [e2, Int.floor_intCast]

/-- The sum `2 ^ 53 + 2` is a binary64 number. -/
theorem addNum_big_even (a b : Int) (h : a + b = 9007199254740994) :
    addNum (some a) (some b) = some 9007199254740994 := by
  have hm : roundHalfEven ((9007199254740994 : ℚ) / 2 ^ ((53 : Int) - 52))
      = 4503599627370497 := by
    have e : (9007199254740994 : ℚ) / 2 ^ ((53 : Int) - 52) = ((4503599627370497 : Int) : ℚ) := by
      norm_num
    rw [e, roundHalfEven_intCast]
  have hb := binary64_of_binade (q := 9007199254740994) (e := 53) (m := 4503599627370497)
    (by norm_num) (by norm_num) (by norm_num) (by norm_num) hm (by norm_num)
  show (binary64 ((a + b : Int) : ℚ)).map (fun r => ⌊r⌋) = _
  have e : ((a + b : Int) : ℚ) = 9007199254740994 := by rw [h]; norm_num
  rw [e, hb, Option.map_some']
  have e2 : ((4503599627370497 : Int) : ℚ) * 2 ^ ((53 : Int) - 52)
      = ((9007199254740994 : Int) : ℚ) := by norm_num
  rw [e2, Int.floor_intCast]

/-- The quotient `10 / 3` is rounded to `7505999378950827 / 2 ^ 51`. -/
theorem divNum_ten_three : divNum 10 3 = some (7505999378950827 / 2251799813685248) := by
  have hm : roundHalfEven (((10 : ℚ) / 3) / 2 ^ ((1 : Int) - 52)) = 7505999378950826 + 1 :=
    roundHalfEven_of_gt (by norm_num) (by norm_num)
  have h := binary64_of_binade (q := (10 : ℚ) / 3) (e := 1) (m := 7505999378950826 + 1)
    (by norm_num) (by norm_num) (by norm_num) (by norm_num) hm
    (by rw [abs_of_pos (by norm_num)]; norm_num)
  unfold divNum
  rw [if_neg (by decide)]
  have e : ((10 : Int) : ℚ) / ((3 : Nat) : ℚ) = (10 : ℚ) / 3 := by norm_num
  rw [e, h]
  congr 1
  norm_num

/-! ## Theorems: exact sums -/

theorem foldl_addNum_exact : ∀ (l : List Int) (acc : Int), 0 ≤ acc → (∀ n ∈ l, 0 ≤ n) →
    acc + l.sum ≤ 2 ^ 53 → (l.map some).foldl addNum (some acc) = some (acc + l.sum)
  | [], acc, _, _, _ => by simp
  | n :: l, acc, hacc, hnn, hb => by
    have hn : 0 ≤ n := hnn n (List.mem_cons_self _ _)
    have hl : ∀ x ∈ l, 0 ≤ x := fun x hx => hnn x (List.mem_cons_of_mem _ hx)
    have hsum : 0 ≤ l.sum := List.sum_nonneg hl
    rw [List.sum_cons] at hb
    have hstep : addNum (some acc) (some n) = some (acc + n) :=
      addNum_exact (by rw [abs_of_nonneg (by omega)]; omega)
    rw [List.map_cons, List.foldl_cons, hstep,
      foldl_addNum_exact l (acc + n) (by omega) hl (by omega), List.sum_cons]
    congr 1
    omega

/-- The function `sum` is exact on non-negative integers whose sum is at most
`2 ^ 53`. -/
theorem sum_exact (l : List Int) (hnn : ∀ n ∈ l, 0 ≤ n) (hb : l.sum ≤ 2 ^ 53) :
    sum (l.map some) = some l.sum := by
  have := foldl_addNum_exact l 0 le_rfl hnn (by omega)
  rw [zero_add] at this
  exact this

theorem sizes_eq_map_entrySize : ∀ (entries : List FileEntry) (sizes : List Int),
    (entries.map fun item => item.size) = sizes.map some →
      sizes = entries.map entrySize ∧ ∀ f ∈ entries, f.size = some (entrySize f)
  | [], [], _ => ⟨rfl, by simp⟩
  | [], _ :: _, h => by simp at h
  | _ :: _, [], h => by simp at h
  | e :: entries, n :: sizes, h => by
    rw [List.map_cons, List.map_cons, List.cons.injEq] at h
    obtain ⟨ih1, ih2⟩ := sizes_eq_map_entrySize entries sizes h.2
    have he : entrySize e = n := by rw [entrySize, h.1]; rfl
    refine ⟨by rw [List.map_cons, he, ← ih1], ?_⟩
    intro f hf
    rcases List.mem_cons.1 hf with rfl | hf
    · rw [he]; exact h.1
    · exact ih2 f hf

theorem sum_entries_exact (entries : List FileEntry)
    (hsome : ∀ f ∈ entries, f.size = some (entrySize f) ∧ 0 ≤ entrySize f)
    (hb : (entries.map entrySize).sum ≤ 2 ^ 53) :
    sum (entries.map fun item => item.size) = some (entries.map entrySize).sum := by
  have e : (entries.map fun item => item.size) = (entries.map entrySize).map some := by
    rw [List.map_map]
    exact List.map_congr_left fun f hf => (hsome f hf).1
  rw [e]
  refine sum_exact _ ?_ hb
  intro n hn
  obtain ⟨f, hf, rfl⟩ := List.mem_map.1 hn
  exact (hsome f hf).2

theorem sum_flatMap_weight (g : List Package) :
    ((g.flatMap fun package => package.files).map entrySize).sum
      = (g.map packageWeight).sum := by
  induction g with
  | nil => rfl
  | cons p g ih =>
    rw [List.flatMap_cons, List.map_append, List.sum_append, ih, List.map_cons, List.sum_cons]
    rfl

theorem packageWeight_nonneg {p : Package}
    (h : ∀ f ∈ p.files, f.size = some (entrySize f) ∧ 0 ≤ entrySize f) :
    0 ≤ packageWeight p := by
  refine List.sum_nonneg fun n hn => ?_
  obtain ⟨f, hf, rfl⟩ := List.mem_map.1 hn
  exact (h f hf).2

/-- The package sizes, and their sum, are exact when all file sizes are
non-negative integers whose sum is at most `2 ^ 53`. -/
theorem sum_getPackageSize_exact (g : List Package)
    (hsome : ∀ p ∈ g, ∀ f ∈ p.files, f.size = some (entrySize f) ∧ 0 ≤ entrySize f)
    (hb : (g.map packageWeight).sum ≤ 2 ^ 53) :
    (∀ p ∈ g, getPackageSize p = some (packageWeight p)) ∧
    sum (g.map getPackageSize) = some (g.map packageWeight).sum := by
  have hnn : ∀ n ∈ g.map packageWeight, 0 ≤ n := by
    intro n hn
    obtain ⟨p, hp, rfl⟩ := List.mem_map.1 hn
    exact packageWeight_nonneg (hsome p hp)
  have h1 : ∀ p ∈ g, getPackageSize p = some (packageWeight p) := by
    intro p hp
    refine sum_entries_exact p.files (hsome p hp) ?_
    exact le_trans (List.single_le_sum hnn _ (List.mem_map.2 ⟨p, hp, rfl⟩)) hb
  refine ⟨h1, ?_⟩
  have e : g.map getPackageSize = (g.map packageWeight).map some := by
    rw [List.map_map]
    exact List.map_congr_left fun p hp => h1 p hp
  rw [e]
  exact sum_exact _ hnn hb

theorem sizes_of_flat {g : List Package} {sizes : List Int}
    (hs : ((g.flatMap fun package => package.files).map fun file => file.size)
      = sizes.map some)
    (hnn : ∀ n ∈ sizes, 0 ≤ n) :
    (∀ p ∈ g, ∀ f ∈ p.files, f.size = some (entrySize f) ∧ 0 ≤ entrySize f) ∧
    (g.map packageWeight).sum = sizes.sum := by
  obtain ⟨h1, h2⟩ := sizes_eq_map_entrySize _ _ hs
  refine ⟨?_, by rw [← sum_flatMap_weight, ← h1]⟩
  intro p hp f hf
  have hmem : f ∈ g.flatMap fun package => package.files :=
    List.mem_flatMap.2 ⟨p, hp, hf⟩
  refine ⟨h2 f hmem, hnn _ ?_⟩
  rw [h1]
  exact List.mem_map.2 ⟨f, hmem, rfl⟩

theorem mkDuplicate_eq (packages : List Package) (s : Int) (q : ℚ)
    (hs : sum (packages.map getPackageSize) = some s)
    (hq : divNum s packages.length = some q) :
    mkDuplicate packages = { packages := packages, size := some s, savings := some q } := by
  unfold mkDuplicate
  simp only [hs, Option.some_bind, hq]

/-- C8 (as stated, refuted): three installs of `x` with 4, 3 and 3 bytes form one
duplicate group of size 10 whose savings is the JavaScript number nearest to
`10 / 3`, and that number times 3 is not 10. -/
theorem C8_savings_counterexample :
    (packageBuckets (packagesGroupedByName threeInstalls)).duplicates
      = [mkDuplicate threeInstalls] ∧
    (mkDuplicate threeInstalls).packages.length = 3 ∧
    (mkDuplicate threeInstalls).size = some 10 ∧
    (mkDuplicate threeInstalls).savings = some (7505999378950827 / 2251799813685248) ∧
    (7505999378950827 / 2251799813685248 : ℚ) * 3 ≠ 10 := by
  have hs : sum (threeInstalls.map getPackageSize) = some 10 :=
    (sum_getPackageSize_exact threeInstalls (by decide)
      (by norm_num [threeInstalls, packageWeight, entrySize])).2
  refine ⟨by rw [duplicates_packageBuckets]; rfl, rfl, hs, ?_, by norm_num⟩
  show (sum (threeInstalls.map getPackageSize)).bind (fun s => divNum s threeInstalls.length) = _
  rw [hs]
  exact divNum_ten_three

/-- C8 (amended): for every duplicate group whose files have non-negative
integer sizes with a sum of at most `2 ^ 53`, the group has more than one
install, its size is the sum of the sizes of all files of all its installs,
its savings is that size divided by the number of installs and rounded to a
JavaScript number, and when the number of installs divides the size the
savings is the exact quotient, so that savings times the number of installs
is the size. -/
theorem C8_duplicate_size_savings (pkgs : List Package) (d : DuplicateGroup)
    (sizes : List Int)
    (hd : d ∈ (packageBuckets (packagesGroupedByName pkgs)).duplicates)
    (hs : ((d.packages.flatMap fun package => package.files).map fun file => file.size)
      = sizes.map some)
    (hnn : ∀ n ∈ sizes, 0 ≤ n) (hb : sizes.sum ≤ 2 ^ 53) :
    1 < d.packages.length ∧
    d.size = some sizes.sum ∧
    d.size = sum ((d.packages.flatMap fun package => package.files).map fun file => file.size) ∧
    d.savings = binary64 ((sizes.sum : ℚ) / (d.packages.length : ℚ)) ∧
    ((d.packages.length : Int) ∣ sizes.sum →
      ∃ q : ℚ, d.savings = some q ∧ q = (sizes.sum : ℚ) / (d.packages.length : ℚ) ∧
        q * (d.packages.length : ℚ) = (sizes.sum : ℚ)) := by
  obtain ⟨kg, _, hlen, rfl⟩ := mem_duplicates.1 hd
  have hs2 : ((kg.2.flatMap fun package => package.files).map fun file => file.size)
      = sizes.map some := hs
  obtain ⟨hsome, hw⟩ := sizes_of_flat hs2 hnn
  have hsize : sum (kg.2.map getPackageSize) = some sizes.sum := by
    rw [← hw]
    exact (sum_getPackageSize_exact kg.2 hsome (by rw [hw]; exact hb)).2
  have hlen0 : kg.2.length ≠ 0 := by omega
  have hsav : (mkDuplicate kg.2).savings = divNum sizes.sum kg.2.length := by
    show (sum (kg.2.map getPackageSize)).bind (fun s => divNum s kg.2.length) = _
    rw [hsize]
    rfl
  have hsum0 : 0 ≤ sizes.sum := List.sum_nonneg hnn
  refine ⟨hlen, hsize, ?_, ?_, ?_⟩
  · show sum (kg.2.map getPackageSize) = _
    rw [hsize, hs, sum_exact sizes hnn hb]
  · rw [hsav]
    unfold divNum
    rw [if_neg hlen0]
    rfl
  · intro hdvd
    refine ⟨(sizes.sum : ℚ) / (kg.2.length : ℚ), ?_, rfl, ?_⟩
    · rw [hsav]
      exact divNum_exact hlen0 hdvd (by rw [abs_of_nonneg hsum0]; exact hb)
    · have hpos : ((kg.2.length : ℕ) : ℚ) ≠ 0 := by exact_mod_cast hlen0
      exact div_mul_cancel₀ _ hpos

/-- C8 (witness): two installs of `lodash`, 4.0.0 with 1000 bytes and 4.1.0
with 500 bytes, give one duplicate group with 2 installs, size 1500 and savings
750 = 1500 / 2, and no unique package. -/
theorem C8_lodash_witness :
    packageBuckets (packagesGroupedByName [lodash400, lodash410])
      = { duplicates := [lodashDuplicate], unique := [] } ∧
    lodashDuplicate.packages.length = 2 ∧
    lodashDuplicate.size = some 1500 ∧
    ∃ q : ℚ, lodashDuplicate.savings = some q ∧ q = ((1500 : Int) : ℚ) / ((2 : Nat) : ℚ) ∧
      q * ((2 : Nat) : ℚ) = ((1500 : Int) : ℚ) := by
  have hs : sum ([lodash400, lodash410].map getPackageSize) = some 1500 :=
    (sum_getPackageSize_exact [lodash400, lodash410] (by decide)
      (by norm_num [lodash400, lodash410, lodashEntry, packageWeight, entrySize])).2
  have hsav : divNum 1500 2 = some 750 := by
    rw [divNum_exact (by decide) (by decide) (by norm_num)]
    congr 1
    norm_num
  have hd : mkDuplicate [lodash400, lodash410] = lodashDuplicate :=
    mkDuplicate_eq [lodash400, lodash410] 1500 750 hs hsav
  have hb : packageBuckets (packagesGroupedByName [lodash400, lodash410])
      = { duplicates := [lodashDuplicate], unique := [] } := by
    rw [← hd]; rfl
  have hmem : lodashDuplicate ∈
      (packageBuckets (packagesGroupedByName [lodash400, lodash410])).duplicates := by
    rw [hb]; exact List.mem_singleton_self _
  have h := C8_duplicate_size_savings [lodash400, lodash410] lodashDuplicate [1000, 500] hmem
    (by rfl) (by decide) (by norm_num)
  exact ⟨hb, rfl, h.2.1, h.2.2.2.2 (by decide)⟩

/-! ## Theorems: report order -/

theorem numLe_total (a b : Option Int) : numLe a b = true ∨ numLe b a = true := by
  cases a <;> cases b <;> simp [numLe, Int.le_total]

theorem numLe_trans {a b c : Option Int} (h1 : numLe a b = true) (h2 : numLe b c = true) :
    numLe a c = true := by
  cases a <;> cases b <;> cases c <;> simp_all [numLe]
  exact Int.le_trans h1 h2

theorem perm_sortBy {α : Type} (xs : List α) (f : α → Option Int) : (sortBy xs f).Perm xs :=
  List.perm_insertionSort _ xs

theorem sorted_sortBy {α : Type} (xs : List α) (f : α → Option Int) :
    (sortBy xs f).Pairwise fun a b => numLe (f a) (f b) = true := by
  haveI : IsTotal α (fun a b => numLe (f a) (f b) = true) := ⟨fun a b => numLe_total _ _⟩
  haveI : IsTrans α (fun a b => numLe (f a) (f b) = true) := ⟨fun _ _ _ => numLe_trans⟩
  exact List.sorted_insertionSort _ xs

/-- The reported order `reverse(sortBy(xs, f))` is a permutation of `xs` in which
the keys, when they are all integers, never increase. -/
theorem reverse_sortBy_spec {α : Type} (xs : List α) (f : α → Option Int)
    (h : ∀ x ∈ xs, f x ≠ none) :
    (reverse (sortBy xs f)).Perm xs ∧
    (reverse (sortBy xs f)).Pairwise fun a b =>
      ∃ m n : Int, f a = some m ∧ f b = some n ∧ n ≤ m := by
  refine ⟨(List.reverse_perm _).trans (perm_sortBy xs f), ?_⟩
  unfold reverse
  rw [List.pairwise_reverse]
  refine List.Pairwise.imp_of_mem ?_ (sorted_sortBy xs f)
  intro a b ha hb hab
  have ha2 := h a ((perm_sortBy xs f).mem_iff.1 ha)
  have hb2 := h b ((perm_sortBy xs f).mem_iff.1 hb)
  cases hfa : f a with
  | none => exact absurd hfa ha2
  | some m =>
    cases hfb : f b with
    | none => exact absurd hfb hb2
    | some n =>
      rw [hfa, hfb] at hab
      exact ⟨n, m, rfl, rfl, by simpa [numLe] using hab⟩

theorem orderedInsert_congr {α : Type} (f g : α → Option Int) (a : α) :
    ∀ l : List α, f a = g a → (∀ x ∈ l, f x = g x) →
      l.orderedInsert (fun a b => numLe (f a) (f b) = true) a
        = l.orderedInsert (fun a b => numLe (g a) (g b) = true) a
  | [], _, _ => rfl
  | b :: l, ha, hl => by
    have hb := hl b (List.mem_cons_self _ _)
    simp only [List.orderedInsert, ha, hb]
    rw [orderedInsert_congr f g a l ha (fun x hx => hl x (List.mem_cons_of_mem _ hx))]

/-- The result of `sortBy` depends only on the keys of the elements sorted. -/
theorem sortBy_congr {α : Type} (f g : α → Option Int) :
    ∀ xs : List α, (∀ x ∈ xs, f x = g x) → sortBy xs f = sortBy xs g
  | [], _ => rfl
  | a :: l, h => by
    have ih := sortBy_congr f g l (fun x hx => h x (List.mem_cons_of_mem _ hx))
    show List.orderedInsert _ a (sortBy l f) = List.orderedInsert _ a (sortBy l g)
    rw [ih]
    refine orderedInsert_congr f g a _ (h a (List.mem_cons_self _ _)) fun x hx => ?_
    exact h x (List.mem_cons_of_mem _ ((perm_sortBy l g).mem_iff.1 hx))

/-- C9: when all sizes are integers, the reported duplicate list is a
permutation of `packageBuckets.duplicates` with non-increasing sizes and the
reported unique list is a permutation of `packageBuckets.unique` with
non-increasing package sizes. -/
theorem C9_report_order (buckets : PackageBuckets)
    (hd : ∀ d ∈ buckets.duplicates, d.size ≠ none)
    (hu : ∀ p ∈ buckets.unique, getPackageSize p ≠ none) :
    (reportedDuplicates buckets).Perm buckets.duplicates ∧
    ((reportedDuplicates buckets).Pairwise fun a b =>
      ∃ m n : Int, a.size = some m ∧ b.size = some n ∧ n ≤ m) ∧
    (reportedUnique buckets).Perm buckets.unique ∧
    ((reportedUnique buckets).Pairwise fun a b =>
      ∃ m n : Int, getPackageSize a = some m ∧ getPackageSize b = some n ∧ n ≤ m) :=
  ⟨(reverse_sortBy_spec buckets.duplicates (fun duplicates => duplicates.size) hd).1,
   (reverse_sortBy_spec buckets.duplicates (fun duplicates => duplicates.size) hd).2,
   (reverse_sortBy_spec buckets.unique getPackageSize hu).1,
   (reverse_sortBy_spec buckets.unique getPackageSize hu).2⟩

/-- C9 (witness): buckets with one duplicate group and three unique packages of
sizes 500, 4300 and 1000 are reported as 4300, 1000, 500. -/
theorem C9_report_order_witness :
    reportedUnique ⟨[lodashDuplicate], [lodash410, reactPackage, lodash400]⟩
      = [reactPackage, lodash400, lodash410] ∧
    (reportedDuplicates ⟨[lodashDuplicate], [lodash410, reactPackage, lodash400]⟩).Perm
      [lodashDuplicate] ∧
    (reportedUnique ⟨[lodashDuplicate], [lodash410, reactPackage, lodash400]⟩).Pairwise
      fun a b => ∃ m n : Int, getPackageSize a = some m ∧ getPackageSize b = some n ∧ n ≤ m := by
  have h410 : getPackageSize lodash410 = some 500 := sum_exact [500] (by decide) (by norm_num)
  have hreact : getPackageSize reactPackage = some 4300 :=
    sum_exact [300, 4000] (by decide) (by norm_num)
  have h400 : getPackageSize lodash400 = some 1000 := sum_exact [1000] (by decide) (by norm_num)
  have hu : ∀ p ∈ [lodash410, reactPackage, lodash400], getPackageSize p ≠ none := by
    intro p hp
    simp only [List.mem_cons, List.mem_singleton, List.not_mem_nil, or_false] at hp
    rcases hp with rfl | rfl | rfl
    · rw [h410]; exact Option.some_ne_none _
    · rw [hreact]; exact Option.some_ne_none _
    · rw [h400]; exact Option.some_ne_none _
  have h := C9_report_order ⟨[lodashDuplicate], [lodash410, reactPackage, lodash400]⟩
    (by decide) hu
  refine ⟨?_, h.1, h.2.2.2⟩
  have hc : sortBy [lodash410, reactPackage, lodash400] getPackageSize
      = sortBy [lodash410, reactPackage, lodash400] fun p => some (packageWeight p) := by
    refine sortBy_congr _ _ _ fun p hp => ?_
    simp only [List.mem_cons, List.mem_singleton, List.not_mem_nil, or_false] at hp
    rcases hp with rfl | rfl | rfl
    · exact h410
    · exact hreact
    · exact h400
  show reverse (sortBy [lodash410, reactPackage, lodash400] getPackageSize) = _
  rw [hc]
  decide

/-! ## Theorems: the pipeline on the lodash example -/

/-- C10 (as stated, refuted): with the object `{"groups": [...]}` as the parsed
chart data the pipeline does not succeed: `getItemsFromGroups` calls `flatMap`
on a value that is not an array. -/
theorem C10_object_payload_counterexample :
    analyze lodashFs (ChartData.object lodashPayload) = Except.error Error.notAnArray ∧
    ∀ r : Report, analyze lodashFs (ChartData.object lodashPayload) ≠ Except.ok r := by
  have h : analyze lodashFs (ChartData.object lodashPayload) = Except.error Error.notAnArray :=
    rfl
  refine ⟨h, fun r hr => ?_⟩
  rw [h] at hr
  cases hr

/-- C10 (amended): with the array `[{"groups": [...]}]` as the parsed chart
data, a file system in which the lodash file exists and the manifest next to
it declares `lodash` at `4.0.0`, the pipeline succeeds with no duplicates and
exactly one unique package `lodash@4.0.0` of package size 1000, and the total
size is 1000. -/
theorem C10_lodash_example (fs : FileSystem)
    (hfile : fs.existsSync "./node_modules/.pnpm/lodash@4.0.0/node_modules/lodash/index.js" = true)
    (hmanifest :
      fs.readManifest "./node_modules/.pnpm/lodash@4.0.0/node_modules/lodash/package.json"
        = some ⟨"lodash", "4.0.0"⟩) :
    analyze fs (ChartData.array [lodashPayload])
      = Except.ok { items := [lodashEntry]
                    packageBuckets := { duplicates := [], unique := [lodash400] }
                    totalSize := some 1000 } ∧
    lodash400.name = "lodash" ∧ lodash400.version = "4.0.0" ∧
    getPackageSize lodash400 = some 1000 := by
  have hsum : sum ([lodashEntry].map fun item => item.size) = some 1000 :=
    sum_exact [1000] (by decide) (by norm_num)
  refine ⟨?_, rfl, rfl, hsum⟩
  have h1 : allItems (ChartData.array [lodashPayload])
      = Except.ok [⟨lodashIndex, some 1000⟩] := rfl
  have h2 : items [⟨lodashIndex, some 1000⟩] = [lodashEntry] := by decide
  have h3 : validate fs [lodashEntry] = Except.ok () := by
    have hv : validateItem fs lodashEntry = Except.ok () := by
      have e : fs.existsSync lodashEntry.path = true := hfile
      have s : startsWith lodashEntry.path.data "./node_modules/.pnpm/".data = true := by decide
      have n : lodashEntry.path.data ≠ [] := by decide
      simp only [validateItem, e, s, n, Bool.not_true, Bool.false_eq_true, if_false]
    simp only [validate, hv]
  have h4 : filesByPackage [lodashEntry]
      = Except.ok [("./node_modules/.pnpm/lodash@4.0.0/node_modules/lodash", [lodashEntry])] :=
    rfl
  have h5 : packageWithVersions fs
      [("./node_modules/.pnpm/lodash@4.0.0/node_modules/lodash", [lodashEntry])]
      = Except.ok [lodash400] := by
    have e : ownEntries [("./node_modules/.pnpm/lodash@4.0.0/node_modules/lodash", [lodashEntry])]
        = [("./node_modules/.pnpm/lodash@4.0.0/node_modules/lodash", [lodashEntry])] := by
      decide
    have p : "./node_modules/.pnpm/lodash@4.0.0/node_modules/lodash" ++ "/package.json"
        = "./node_modules/.pnpm/lodash@4.0.0/node_modules/lodash/package.json" := by decide
    simp only [packageWithVersions, e, readPackages, p, hmanifest]
    rfl
  have h6 : packageBuckets (packagesGroupedByName [lodash400])
      = { duplicates := [], unique := [lodash400] } := by rfl
  have h7 : sum ([lodashEntry].map fun item => item.size) = some 1000 := hsum
  simp only [analyze, h1, h2, h3, h4, h5, h6, h7]

/-- C10 (witness): the amended statement at the file system `lodashFs`. -/
theorem C10_lodash_example_witness :
    analyze lodashFs (ChartData.array [lodashPayload])
      = Except.ok { items := [lodashEntry]
                    packageBuckets := { duplicates := [], unique := [lodash400] }
                    totalSize := some 1000 } ∧
    lodash400.name = "lodash" ∧ lodash400.version = "4.0.0" ∧
    getPackageSize lodash400 = some 1000 :=
  C10_lodash_example lodashFs (by decide) (by decide)

/-! ## Theorems: prefix normalisation and validation -/

theorem lazyNodeModules_canonical (rest : List Char) :
    lazyNodeModules ("./node_modules".data ++ rest) = some rest := by
  have e : "./node_modules".data ++ rest = '.' :: '/' :: ("node_modules".data ++ rest) := rfl
  have h1 : "node_modules".data.isPrefixOf ('.' :: '/' :: ("node_modules".data ++ rest)) = false := rfl
  have h2 : "node_modules".data.isPrefixOf ('/' :: ("node_modules".data ++ rest)) = false := rfl
  have h3 : "node_modules".data.isPrefixOf ("node_modules".data ++ rest) = true := by
    rw [List.isPrefixOf_iff_prefix]; exact List.prefix_append _ _
  have h4 : isLineTerminator '.' = false := by decide
  have h5 : isLineTerminator '/' = false := by decide
  rw [e, lazyNodeModules, h1, h4, lazyNodeModules, h2, h5]
  simp only [Bool.false_eq_true, if_false]
  have e2 : "node_modules".data ++ rest = 'n' :: ("ode_modules".data ++ rest) := rfl
  rw [e2, lazyNodeModules, ← e2, h3]
  rfl

theorem replaceNodeModules_of_some {s rest : List Char} (h : lazyNodeModules s = some rest) :
    replaceNodeModules s = "./node_modules".data ++ rest := by
  unfold replaceNodeModules
  rw [h]

theorem replaceNodeModules_of_none {s : List Char} (h : lazyNodeModules s = none) :
    replaceNodeModules s = s := by
  unfold replaceNodeModules
  rw [h]

/-- C19: prefix normalisation `path.replace(/^.*?node_modules/, "./node_modules")`
is idempotent: normalising an already normalised path returns it unchanged,
for every path string and every entry. -/
theorem C19_normalise_idempotent (path : String) (size : Option Int) :
    replaceNodeModules (replaceNodeModules path.data) = replaceNodeModules path.data ∧
    normalise (normalise ⟨path, size⟩) = normalise ⟨path, size⟩ := by
  have h : ∀ s : List Char, replaceNodeModules (replaceNodeModules s) = replaceNodeModules s := by
    intro s
    cases hs : lazyNodeModules s with
    | none => rw [replaceNodeModules_of_none hs, replaceNodeModules_of_none hs]
    | some rest =>
      rw [replaceNodeModules_of_some hs,
        replaceNodeModules_of_some (lazyNodeModules_canonical rest)]
  exact ⟨h path.data, by simp only [normalise]; rw [h]⟩

theorem includes_eq_true_iff (sub : List Char) :
    ∀ s : List Char, includes s sub = true ↔ sub <:+: s
  | [] => by
    rw [includes, List.isPrefixOf_iff_prefix, List.prefix_nil, List.infix_nil]
  | c :: cs => by
    rw [includes, Bool.or_eq_true, List.isPrefixOf_iff_prefix, includes_eq_true_iff sub cs,
      List.infix_cons_iff]

theorem ne_nil_of_includes {s sub : List Char} (h : includes s sub = true) (hsub : sub ≠ []) :
    s ≠ [] := by
  rintro rfl
  rw [includes_eq_true_iff, List.infix_nil] at h
  exact hsub h

theorem mem_items {allItems : List FileEntry} {x : FileEntry} :
    x ∈ items allItems ↔
      ∃ item ∈ allItems, inDependencyTree (splitAndRewrite item) = true ∧
        x = normalise (splitAndRewrite item) := by
  simp only [items, List.mem_map, List.mem_filter, List.mem_flatMap, List.mem_singleton]
  constructor
  · rintro ⟨y, ⟨⟨item, hitem, rfl⟩, hy⟩, rfl⟩
    exact ⟨item, hitem, hy, rfl⟩
  · rintro ⟨item, hitem, hy, rfl⟩
    exact ⟨splitAndRewrite item, ⟨⟨item, hitem, rfl⟩, hy⟩, rfl⟩

theorem path_ne_nil_of_mem_items {allItems : List FileEntry} {x : FileEntry}
    (h : x ∈ items allItems) : x.path.data ≠ [] := by
  obtain ⟨item, _, hy, rfl⟩ := mem_items.1 h
  have hne : (splitAndRewrite item).path.data ≠ [] :=
    ne_nil_of_includes hy (by decide)
  show replaceNodeModules (splitAndRewrite item).path.data ≠ []
  cases hs : lazyNodeModules (splitAndRewrite item).path.data with
  | none => rw [replaceNodeModules_of_none hs]; exact hne
  | some rest =>
    rw [replaceNodeModules_of_some hs]
    intro e
    have := congrArg List.length e
    simp at this

theorem validateItem_cases (fs : FileSystem) (item : FileEntry) :
    validateItem fs item = Except.ok () ∨
    validateItem fs item = Except.error (Error.doesNotExist item.path) ∨
    validateItem fs item = Except.error (Error.notInNodeModules item.path) ∨
    (item.path.data = [] ∧ validateItem fs item = Except.error (Error.notValidItem item.path)) := by
  unfold validateItem
  by_cases h1 : (!fs.existsSync item.path) = true
  · rw [if_pos h1]; exact Or.inr (Or.inl rfl)
  · rw [if_neg h1]
    by_cases h2 : (!startsWith item.path.data "./node_modules/.pnpm/".data) = true
    · rw [if_pos h2]; exact Or.inr (Or.inr (Or.inl rfl))
    · rw [if_neg h2]
      by_cases h3 : item.path.data = []
      · rw [if_pos h3]; exact Or.inr (Or.inr (Or.inr ⟨h3, rfl⟩))
      · rw [if_neg h3]; exact Or.inl rfl

theorem validate_cases (fs : FileSystem) : ∀ its : List FileEntry,
    (∀ x ∈ its, x.path.data ≠ []) →
    validate fs its = Except.ok () ∨
    (∃ x ∈ its, validate fs its = Except.error (Error.doesNotExist x.path)) ∨
    (∃ x ∈ its, validate fs its = Except.error (Error.notInNodeModules x.path))
  | [], _ => Or.inl rfl
  | item :: rest, h => by
    have hrest := validate_cases fs rest fun x hx => h x (List.mem_cons_of_mem _ hx)
    rcases validateItem_cases fs item with h1 | h1 | h1 | ⟨h0, _⟩
    · have e : validate fs (item :: rest) = validate fs rest := by
        rw [validate, h1]
      rw [e]
      rcases hrest with h2 | ⟨x, hx, h2⟩ | ⟨x, hx, h2⟩
      · exact Or.inl h2
      · exact Or.inr (Or.inl ⟨x, List.mem_cons_of_mem _ hx, h2⟩)
      · exact Or.inr (Or.inr ⟨x, List.mem_cons_of_mem _ hx, h2⟩)
    · refine Or.inr (Or.inl ⟨item, List.mem_cons_self _ _, ?_⟩)
      rw [validate, h1]
    · refine Or.inr (Or.inr ⟨item, List.mem_cons_self _ _, ?_⟩)
      rw [validate, h1]
    · exact absurd h0 (h item (List.mem_cons_self _ _))

/-- C20: every entry produced by the reconciliation steps has a non-empty path,
so validation of the reconciled entries either succeeds or fails through the
existence check or the prefix check, never through the third branch
(`is not a valid item`), and no run of the pipeline ends with that error. -/
theorem C20_third_branch_unreachable :
    (∀ (allItems : List FileEntry) (x : FileEntry), x ∈ items allItems → x.path ≠ "") ∧
    (∀ (fs : FileSystem) (allItems : List FileEntry),
      validate fs (items allItems) = Except.ok () ∨
      (∃ x ∈ items allItems,
        validate fs (items allItems) = Except.error (Error.doesNotExist x.path)) ∨
      (∃ x ∈ items allItems,
        validate fs (items allItems) = Except.error (Error.notInNodeModules x.path))) ∧
    (∀ (fs : FileSystem) (allItems : List FileEntry) (p : String),
      validate fs (items allItems) ≠ Except.error (Error.notValidItem p)) ∧
    (∀ (fs : FileSystem) (dataParsed : ChartData) (p : String),
      analyze fs dataParsed ≠ Except.error (Error.notValidItem p)) := by
  have hv : ∀ (fs : FileSystem) (allItems : List FileEntry) (p : String),
      validate fs (items allItems) ≠ Except.error (Error.notValidItem p) := by
    intro fs allItems p h
    rcases validate_cases fs (items allItems) (fun x hx => path_ne_nil_of_mem_items hx) with
      h1 | ⟨x, _, h1⟩ | ⟨x, _, h1⟩ <;> rw [h1] at h <;> cases h
  refine ⟨?_, fun fs allItems =>
    validate_cases fs (items allItems) (fun x hx => path_ne_nil_of_mem_items hx), hv, ?_⟩
  · intro allItems x hx e
    exact path_ne_nil_of_mem_items hx (by rw [e])
  · intro fs dataParsed p h
    unfold analyze at h
    split at h
    · rename_i e he
      cases dataParsed <;> simp [allItems] at he <;> rw [← he] at h <;> cases h
    · rename_i all _
      simp only at h
      split at h
      · rename_i e he
        have := hv fs all p
        rw [he] at this
        have e2 : e = Error.notValidItem p := by injection h
        exact this (by rw [e2])
      · split at h
        · rename_i e he
          unfold filesByPackage at he
          split at he <;> cases he
          cases h
        · split at h
          · rename_i byPackage _ e he
            have hne : ∀ l : List (String × List FileEntry),
                readPackages fs l ≠ Except.error (Error.notValidItem p) := by
              intro l
              induction l with
              | nil => intro c; cases c
              | cons kv l ih =>
                obtain ⟨k, files⟩ := kv
                intro c
                unfold readPackages at c
                split at c
                · cases c
                · split at c
                  · rename_i e2 he2
                    rw [he2] at ih
                    exact ih (by rw [c])
                  · cases c
            have e2 : e = Error.notValidItem p := by injection h
            exact hne _ (he.trans (by rw [e2]))
          · cases h

/-- C18: the path `cachePath` passes the dependency-tree filter, its normalised
form does not start with `./node_modules/.pnpm/`, and whenever the normalised
file exists the run ends with the `is not in the node_modules directory`
error. -/
theorem C18_prefix_error_reachable :
    includes cachePath.data "./node_modules/.pnpm/".data = true ∧
    replaceNodeModules cachePath.data = cachePathNormalised.data ∧
    startsWith cachePathNormalised.data "./node_modules/.pnpm/".data = false ∧
    (∀ (fs : FileSystem) (parsedSize : Option Int), fs.existsSync cachePathNormalised = true →
      analyze fs (ChartData.array [SizeNode.mk (some cachePath) parsedSize none none])
        = Except.error (Error.notInNodeModules cachePathNormalised)) ∧
    cacheFs.existsSync cachePathNormalised = true ∧
    analyze cacheFs (ChartData.array [SizeNode.mk (some cachePath) (some 10) none none])
      = Except.error (Error.notInNodeModules cachePathNormalised) := by
  have h1 : includes cachePath.data "./node_modules/.pnpm/".data = true := by rfl
  have h2 : replaceNodeModules cachePath.data = cachePathNormalised.data := by rfl
  have h3 : startsWith cachePathNormalised.data "./node_modules/.pnpm/".data = false := by rfl
  refine ⟨h1, h2, h3, ?_, by decide, by rfl⟩
  intro fs parsedSize hfs
  have hne : cachePath ≠ "" := by decide
  have a1 : allItems (ChartData.array [SizeNode.mk (some cachePath) parsedSize none none])
      = Except.ok [⟨cachePath, orNum parsedSize none⟩] := by
    simp only [allItems, getItemsFromGroups, getItems, hne, ne_eq, not_false_eq_true, if_true,
      List.append_nil]
  have hsplit : splitRewrite cachePath.data = cachePath.data := by rfl
  have a2 : items [⟨cachePath, orNum parsedSize none⟩]
      = [⟨cachePathNormalised, orNum parsedSize none⟩] := by
    rw [items_singleton]
    simp only [splitAndRewrite, inDependencyTree, normalise, hsplit, h1, h2, if_true]
  have a3 : validate fs [⟨cachePathNormalised, orNum parsedSize none⟩]
      = Except.error (Error.notInNodeModules cachePathNormalised) := by
    simp only [validate, validateItem, hfs, h3, Bool.not_true, Bool.false_eq_true, if_false,
      Bool.not_false, if_true]
  simp only [analyze, a1, a2, a3]

/-! ## Theorems: totals -/

theorem analyze_ok {fs : FileSystem} {dataParsed : ChartData} {r : Report}
    (h : analyze fs dataParsed = Except.ok r) :
    ∃ all byPackage pkgs,
      allItems dataParsed = Except.ok all ∧
      validate fs (items all) = Except.ok () ∧
      filesByPackage (items all) = Except.ok byPackage ∧
      packageWithVersions fs byPackage = Except.ok pkgs ∧
      r = { items := items all
            packageBuckets := packageBuckets (packagesGroupedByName pkgs)
            totalSize := sum ((items all).map fun item => item.size) } := by
  unfold analyze at h
  split at h
  · cases h
  · rename_i all h1
    simp only at h
    split at h
    · cases h
    · rename_i u h2
      split at h
      · cases h
      · rename_i byPackage h3
        split at h
        · cases h
        · rename_i pkgs h4
          injection h with h
          exact ⟨all, byPackage, pkgs, h1, h2, h3, h4, h.symm⟩

theorem analyze_of_steps (fs : FileSystem) (dataParsed : ChartData) (all : List FileEntry)
    (byPackage : List (String × List FileEntry)) (pkgs : List Package)
    (h1 : allItems dataParsed = Except.ok all)
    (h2 : validate fs (items all) = Except.ok ())
    (h3 : filesByPackage (items all) = Except.ok byPackage)
    (h4 : packageWithVersions fs byPackage = Except.ok pkgs) :
    analyze fs dataParsed
      = Except.ok { items := items all
                    packageBuckets := packageBuckets (packagesGroupedByName pkgs)
                    totalSize := sum ((items all).map fun item => item.size) } := by
  simp only [analyze, h1, h2, h3, h4]

/-- The total of a permutation of entries whose sizes are non-negative integers
with a sum of at most `2 ^ 53` is the exact sum. -/
theorem sum_perm_exact {entries permuted : List FileEntry} {sizes : List Int}
    (hperm : entries.Perm permuted)
    (hs : (entries.map fun item => item.size) = sizes.map some)
    (hnn : ∀ n ∈ sizes, 0 ≤ n) (hb : sizes.sum ≤ 2 ^ 53) :
    sum (permuted.map fun item => item.size) = some sizes.sum := by
  obtain ⟨h1, h2⟩ := sizes_eq_map_entrySize entries sizes hs
  have hsum : (permuted.map entrySize).sum = (entries.map entrySize).sum :=
    ((hperm.map entrySize).sum_eq).symm
  have hb2 : (entries.map entrySize).sum ≤ 2 ^ 53 := by rw [← h1]; exact hb
  have hres := sum_entries_exact permuted (fun f hf => by
    have hf2 : f ∈ entries := hperm.mem_iff.2 hf
    refine ⟨h2 f hf2, hnn _ ?_⟩
    rw [h1]
    exact List.mem_map.2 ⟨f, hf2, rfl⟩) (by rw [hsum]; exact hb2)
  rw [hres, hsum, ← h1]

theorem sum_pair (a b : Option Int) : sum [a, b] = addNum (addNum (some 0) a) b := rfl

theorem sum_triple (a b c : Option Int) :
    sum [a, b, c] = addNum (addNum (addNum (some 0) a) b) c := rfl

/-- The entries of `bigEntries` total `2 ^ 53` in their order: each of the two
additions of 1 is rounded back to `2 ^ 53`. -/
theorem sum_bigEntries :
    sum (bigEntries.map fun item => item.size) = some 9007199254740992 := by
  have e0 : addNum (some 0) (some 9007199254740992) = some 9007199254740992 :=
    (addNum_exact (by norm_num)).trans (by norm_num)
  have h1 : (bigEntries.map fun item => item.size)
      = [some 9007199254740992, some 1, some 1] := rfl
  rw [h1, sum_triple, e0, addNum_tie, addNum_tie]

/-- C14 (as stated, refuted): the entries of `bigEntries` have the integer sizes
`2 ^ 53`, 1 and 1; in this order their total is 9007199254740992 and in the
reverse order it is 9007199254740994, which is the sum of the sizes. -/
theorem C14_total_order_counterexample :
    (bigEntries.map fun item => item.size) = [some 9007199254740992, some 1, some 1] ∧
    bigEntries.Perm bigEntries.reverse ∧
    sum (bigEntries.map fun item => item.size) = some 9007199254740992 ∧
    sum (bigEntries.reverse.map fun item => item.size) = some 9007199254740994 ∧
    (9007199254740992 : Int) + 1 + 1 = 9007199254740994 := by
  have e1 : addNum (some 0) (some 1) = some 1 :=
    (addNum_exact (by norm_num)).trans (by norm_num)
  have e2 : addNum (some 1) (some 1) = some 2 :=
    (addNum_exact (by norm_num)).trans (by norm_num)
  have e3 : addNum (some 2) (some 9007199254740992) = some 9007199254740994 :=
    addNum_big_even 2 9007199254740992 (by norm_num)
  have h2 : (bigEntries.reverse.map fun item => item.size)
      = [some 1, some 1, some 9007199254740992] := rfl
  refine ⟨rfl, (List.reverse_perm _).symm, sum_bigEntries, ?_, by norm_num⟩
  rw [h2, sum_triple, e1, e2, e3]

/-- C14 (amended): for every sequence of reconciled entries whose sizes are
non-negative integers with a sum of at most `2 ^ 53`, the total
`sum(items.map((item) => item.size))` is the sum of the individual sizes and
is the same for every permutation of the sequence; the total of a successful
run is `sum` over its reconciled entries. -/
theorem C14_total_order_independent (entries permuted : List FileEntry) (sizes : List Int)
    (hperm : entries.Perm permuted)
    (hs : (entries.map fun item => item.size) = sizes.map some)
    (hnn : ∀ n ∈ sizes, 0 ≤ n) (hb : sizes.sum ≤ 2 ^ 53) :
    sum (entries.map fun item => item.size) = some sizes.sum ∧
    sum (permuted.map fun item => item.size) = sum (entries.map fun item => item.size) ∧
    ∀ (fs : FileSystem) (dataParsed : ChartData) (r : Report),
      analyze fs dataParsed = Except.ok r →
        r.totalSize = sum (r.items.map fun item => item.size) := by
  have h1 : sum (entries.map fun item => item.size) = some sizes.sum := by
    rw [hs]
    exact sum_exact sizes hnn hb
  refine ⟨h1, ?_, ?_⟩
  · rw [h1]
    exact sum_perm_exact hperm hs hnn hb
  · intro fs dataParsed r h
    obtain ⟨all, byPackage, pkgs, _, _, _, _, rfl⟩ := analyze_ok h
    rfl

/-- C14 (witness): three entries of 1000, 300 and 4000 bytes total 5300 bytes in
either order. -/
theorem C14_total_witness :
    sum (([lodashEntry] ++ reactPackage.files).map fun item => item.size) = some 5300 ∧
    sum ((reactPackage.files ++ [lodashEntry]).map fun item => item.size)
      = sum (([lodashEntry] ++ reactPackage.files).map fun item => item.size) := by
  have h := C14_total_order_independent ([lodashEntry] ++ reactPackage.files)
    (reactPackage.files ++ [lodashEntry]) [1000, 300, 4000] List.perm_append_comm (by rfl)
    (by decide) (by norm_num)
  exact ⟨h.1.trans (by norm_num), h.2.1⟩

theorem readPackages_ok (fs : FileSystem) : ∀ (l : List (String × List FileEntry))
    (pkgs : List Package), readPackages fs l = Except.ok pkgs →
      pkgs.map (fun package => (package.path, package.files)) = l
  | [], pkgs, h => by
    injection h with h
    rw [← h]
    rfl
  | (path, files) :: rest, pkgs, h => by
    unfold readPackages at h
    split at h
    · cases h
    · split at h
      · cases h
      · rename_i ps hps
        injection h with h
        rw [← h, List.map_cons, readPackages_ok fs rest ps hps]

theorem flatMap_files_of_readPackages {fs : FileSystem} {l : List (String × List FileEntry)}
    {pkgs : List Package} (h : readPackages fs l = Except.ok pkgs) :
    (pkgs.flatMap fun package => package.files) = l.flatMap Prod.snd := by
  rw [← readPackages_ok fs l pkgs h, List.flatMap_map]

theorem filesByPackage_ok {its : List FileEntry} {byPackage : List (String × List FileEntry)}
    (h : filesByPackage its = Except.ok byPackage) :
    byPackage = groupBy its fun item => (packageKey item).getD "" := by
  unfold filesByPackage at h
  split at h
  · injection h with h
    exact h.symm
  · cases h

theorem weight_buckets_groups : ∀ groups : List (List Package), (∀ g ∈ groups, g ≠ []) →
    ((groups.filter fun g => decide (1 < g.length)).map fun g => (g.map packageWeight).sum).sum
      + (((groups.filter fun g => !decide (1 < g.length)).flatMap
          fun g => g.head?.toList).map packageWeight).sum
      = (groups.flatten.map packageWeight).sum
  | [], _ => rfl
  | g :: rest, h => by
    have ih := weight_buckets_groups rest fun x hx => h x (List.mem_cons_of_mem _ hx)
    by_cases hlen : 1 < g.length
    · have e1 : decide (1 < g.length) = true := decide_eq_true hlen
      simp only [List.filter_cons, e1, if_true, Bool.not_true, Bool.false_eq_true, if_false,
        List.map_cons, List.flatten_cons, List.map_append, List.sum_cons, List.sum_append]
      omega
    · have e1 : decide (1 < g.length) = false := decide_eq_false hlen
      cases g with
      | nil => exact absurd rfl (h [] (List.mem_cons_self _ _))
      | cons p ps =>
        have hps : ps = [] := by
          cases ps with
          | nil => rfl
          | cons q qs => exact absurd (by simp) hlen
        subst hps
        simp only [List.filter_cons, e1, if_true, Bool.not_false, Bool.false_eq_true, if_false,
          List.flatMap_cons, List.head?_cons, Option.toList_some, List.singleton_append,
          List.map_cons, List.flatten_cons, List.sum_cons]
        omega

/-- The sizes of the duplicate groups plus the package sizes of the unique
packages, computed with `sum`, are the exact sum of all file sizes when these
are non-negative integers whose sum is at most `2 ^ 53`. -/
theorem sum_buckets_groups_exact (groups : List (List Package)) (hne : ∀ g ∈ groups, g ≠ [])
    (hsome : ∀ g ∈ groups, ∀ p ∈ g, ∀ f ∈ p.files,
      f.size = some (entrySize f) ∧ 0 ≤ entrySize f)
    (hb : (groups.flatten.map packageWeight).sum ≤ 2 ^ 53) :
    addNum
        (sum (((groups.filter fun g => decide (1 < g.length)).map mkDuplicate).map
          fun duplicates => duplicates.size))
        (sum (((groups.filter fun g => !decide (1 < g.length)).flatMap
          fun g => g.head?.toList).map getPackageSize))
      = some (groups.flatten.map packageWeight).sum := by
  have hw := weight_buckets_groups groups hne
  have hA : ∀ n ∈ (groups.filter fun g => decide (1 < g.length)).map
      (fun g => (g.map packageWeight).sum), 0 ≤ n := by
    intro n hn
    obtain ⟨g, hg, rfl⟩ := List.mem_map.1 hn
    refine List.sum_nonneg fun m hm => ?_
    obtain ⟨p, hp, rfl⟩ := List.mem_map.1 hm
    exact packageWeight_nonneg (hsome g (List.mem_filter.1 hg).1 p hp)
  have hU : ∀ p ∈ (groups.filter fun g => !decide (1 < g.length)).flatMap
      (fun g => g.head?.toList), ∀ f ∈ p.files,
        f.size = some (entrySize f) ∧ 0 ≤ entrySize f := by
    intro p hp
    obtain ⟨g, hg, hpg⟩ := List.mem_flatMap.1 hp
    exact hsome g (List.mem_filter.1 hg).1 p (List.mem_of_mem_head? (Option.mem_toList.1 hpg))
  have hB : ∀ n ∈ ((groups.filter fun g => !decide (1 < g.length)).flatMap
      fun g => g.head?.toList).map packageWeight, 0 ≤ n := by
    intro n hn
    obtain ⟨p, hp, rfl⟩ := List.mem_map.1 hn
    exact packageWeight_nonneg (hU p hp)
  have hA0 := List.sum_nonneg hA
  have hB0 := List.sum_nonneg hB
  have hd : (((groups.filter fun g => decide (1 < g.length)).map mkDuplicate).map
        fun duplicates => duplicates.size)
      = ((groups.filter fun g => decide (1 < g.length)).map
          fun g => (g.map packageWeight).sum).map some := by
    rw [List.map_map, List.map_map]
    refine List.map_congr_left fun g hg => ?_
    show sum (g.map getPackageSize) = some (g.map packageWeight).sum
    refine (sum_getPackageSize_exact g (hsome g (List.mem_filter.1 hg).1) ?_).2
    have := List.single_le_sum hA _ (List.mem_map.2 ⟨g, hg, rfl⟩)
    omega
  have hu : (((groups.filter fun g => !decide (1 < g.length)).flatMap
        fun g => g.head?.toList).map getPackageSize)
      = (((groups.filter fun g => !decide (1 < g.length)).flatMap
          fun g => g.head?.toList).map packageWeight).map some := by
    rw [List.map_map]
    refine List.map_congr_left fun p hp => ?_
    refine sum_entries_exact p.files (hU p hp) ?_
    have := List.single_le_sum hB _ (List.mem_map.2 ⟨p, hp, rfl⟩)
    show packageWeight p ≤ 2 ^ 53
    omega
  rw [hd, hu, sum_exact _ hA (by omega), sum_exact _ hB (by omega),
    addNum_exact (by rw [abs_of_nonneg (by omega)]; omega), hw]

/-- C17 (as stated, refuted): with one file of `2 ^ 53` bytes in the package
`big` and two files of one byte in the package `tiny`, the run succeeds with
integer sizes and no duplicate group, the total of the reconciled entries is
9007199254740992, and the sizes of the duplicate groups plus the package sizes
of the unique packages are 9007199254740994. -/
theorem C17_size_conservation_counterexample :
    analyze bigFs bigData
      = Except.ok { items := bigEntries
                    packageBuckets := { duplicates := [], unique := [bigPackage, tinyPackage] }
                    totalSize := some 9007199254740992 } ∧
    (bigEntries.map fun item => item.size) = [some 9007199254740992, some 1, some 1] ∧
    addNum (sum (([] : List DuplicateGroup).map fun duplicates => duplicates.size))
        (sum ([bigPackage, tinyPackage].map getPackageSize))
      = some 9007199254740994 := by
  have e0 : addNum (some 0) (some 9007199254740992) = some 9007199254740992 :=
    (addNum_exact (by norm_num)).trans (by norm_num)
  have hbig : getPackageSize bigPackage = some 9007199254740992 :=
    sum_exact [9007199254740992] (by decide) (by norm_num)
  have htiny : getPackageSize tinyPackage = some 2 := sum_exact [1, 1] (by decide) (by norm_num)
  have hu : sum ([bigPackage, tinyPackage].map getPackageSize) = some 9007199254740994 := by
    rw [List.map_cons, List.map_cons, List.map_nil, sum_pair, hbig, htiny, e0,
      addNum_big_even 9007199254740992 2 (by norm_num)]
  have hd : sum (([] : List DuplicateGroup).map fun duplicates => duplicates.size) = some 0 :=
    rfl
  have h := analyze_of_steps bigFs bigData bigEntries
    [(bigPackage.path, bigPackage.files), (tinyPackage.path, tinyPackage.files)]
    [bigPackage, tinyPackage] (by rfl) (by rfl) (by rfl) (by rfl)
  have hi : items bigEntries = bigEntries := by rfl
  have hbk : packageBuckets (packagesGroupedByName [bigPackage, tinyPackage])
      = { duplicates := [], unique := [bigPackage, tinyPackage] } := by rfl
  rw [hi, hbk, sum_bigEntries] at h
  refine ⟨h, rfl, ?_⟩
  rw [hd, hu]
  exact addNum_big_even 0 9007199254740994 (by norm_num)

/-- C17 (amended): whenever the pipeline succeeds and the sizes of the
reconciled entries are non-negative integers with a sum of at most `2 ^ 53`,
the sizes of the duplicate groups plus the package sizes of the unique
packages add up to the total size of the reconciled entries, which is the sum
of their sizes. -/
theorem C17_size_conservation (fs : FileSystem) (dataParsed : ChartData) (r : Report)
    (sizes : List Int) (h : analyze fs dataParsed = Except.ok r)
    (hs : (r.items.map fun item => item.size) = sizes.map some)
    (hnn : ∀ n ∈ sizes, 0 ≤ n) (hb : sizes.sum ≤ 2 ^ 53) :
    addNum (sum (r.packageBuckets.duplicates.map fun duplicates => duplicates.size))
        (sum (r.packageBuckets.unique.map getPackageSize))
      = r.totalSize ∧
    r.totalSize = sum (r.items.map fun item => item.size) ∧
    r.totalSize = some sizes.sum := by
  obtain ⟨all, byPackage, pkgs, _, _, h3, h4, rfl⟩ := analyze_ok h
  have hs2 : ((items all).map fun item => item.size) = sizes.map some := hs
  have htotal : sum ((items all).map fun item => item.size) = some sizes.sum := by
    rw [hs2]
    exact sum_exact sizes hnn hb
  obtain ⟨h1, h2⟩ := sizes_eq_map_entrySize _ _ hs2
  have hfiles : (pkgs.flatMap fun package => package.files).Perm (items all) := by
    unfold packageWithVersions at h4
    rw [flatMap_files_of_readPackages h4, filesByPackage_ok h3]
    exact ((perm_ownEntries _).flatMap_right Prod.snd).trans (perm_flatMap_groupBy _ _)
  have hgroups : (((ownEntries (packagesGroupedByName pkgs)).map Prod.snd).flatten).Perm
      pkgs := by
    have := ((perm_ownEntries (packagesGroupedByName pkgs)).flatMap_right Prod.snd).trans
      (perm_flatMap_groupBy pkgs fun package => package.name)
    rwa [List.flatMap] at this
  have hne : ∀ g ∈ (ownEntries (packagesGroupedByName pkgs)).map Prod.snd, g ≠ [] := by
    intro g hg
    obtain ⟨kg, hkg, rfl⟩ := List.mem_map.1 hg
    exact group_ne_nil ((perm_ownEntries _).mem_iff.1 hkg)
  have hsomeG : ∀ g ∈ (ownEntries (packagesGroupedByName pkgs)).map Prod.snd, ∀ p ∈ g,
      ∀ f ∈ p.files, f.size = some (entrySize f) ∧ 0 ≤ entrySize f := by
    intro g hg p hp f hf
    have hpk : p ∈ pkgs := hgroups.mem_iff.1 (List.mem_flatten.2 ⟨g, hg, hp⟩)
    have hmem : f ∈ items all := hfiles.mem_iff.1 (List.mem_flatMap.2 ⟨p, hpk, hf⟩)
    refine ⟨h2 f hmem, hnn _ ?_⟩
    rw [h1]
    exact List.mem_map.2 ⟨f, hmem, rfl⟩
  have hW : ((((ownEntries (packagesGroupedByName pkgs)).map Prod.snd).flatten).map
      packageWeight).sum = sizes.sum := by
    rw [(hgroups.map packageWeight).sum_eq, ← sum_flatMap_weight,
      (hfiles.map entrySize).sum_eq, ← h1]
  refine ⟨?_, rfl, htotal⟩
  show addNum _ _ = sum ((items all).map fun item => item.size)
  rw [htotal, duplicates_packageBuckets, unique_packageBuckets,
    sum_buckets_groups_exact _ hne hsomeG (by rw [hW]; exact hb), hW]

/-- C17 (witness): with two installs of lodash of 1000 and 500 bytes, the single
duplicate group has size 1500, there is no unique package, and the total is
1500. -/
theorem C17_size_conservation_witness :
    analyze twoLodashFs twoLodashData
      = Except.ok { items := lodash400.files ++ lodash410.files
                    packageBuckets := packageBuckets (packagesGroupedByName [lodash400, lodash410])
                    totalSize := some 1500 } ∧
    addNum
        (sum ((packageBuckets (packagesGroupedByName [lodash400, lodash410])).duplicates.map
          fun duplicates => duplicates.size))
        (sum ((packageBuckets (packagesGroupedByName [lodash400, lodash410])).unique.map
          getPackageSize))
      = some 1500 := by
  have h := analyze_of_steps twoLodashFs twoLodashData (lodash400.files ++ lodash410.files)
    [(lodash400.path, lodash400.files), (lodash410.path, lodash410.files)]
    [lodash400, lodash410] (by rfl) (by rfl) (by rfl) (by rfl)
  have hi : items (lodash400.files ++ lodash410.files) = lodash400.files ++ lodash410.files := by
    rfl
  have ht : sum ((lodash400.files ++ lodash410.files).map fun item => item.size) = some 1500 :=
    sum_exact [1000, 500] (by decide) (by norm_num)
  rw [hi, ht] at h
  exact ⟨h, (C17_size_conservation twoLodashFs twoLodashData _ [1000, 500] h (by rfl)
    (by decide) (by norm_num)).1⟩

/-! ## Theorems: package resolver -/

theorem filesByPackage_all {its : List FileEntry} {byPackage : List (String × List FileEntry)}
    (h : filesByPackage its = Except.ok byPackage) :
    ∀ item ∈ its, (packageKey item).isSome = true := by
  unfold filesByPackage at h
  split at h
  · rename_i hall
    exact List.all_eq_true.1 hall
  · cases h

theorem getD_eq_iff_of_isSome {o : Option String} (ho : o.isSome = true) (k : String) :
    o.getD "" = k ↔ o = some k := by
  cases o with
  | none => cases ho
  | some v => simp

/-- C12: when the grouping step succeeds, there is exactly one group per
distinct matched substring, each group is non-empty and holds exactly the
entries with that matched substring in input order, two entries share a group
if and only if their matched substrings are equal, the groups together are a
permutation of the entries, and the resolved packages carry these groups as
their `path` and `files`. -/
theorem C12_files_by_package (its : List FileEntry)
    (byPackage : List (String × List FileEntry))
    (h : filesByPackage its = Except.ok byPackage) :
    (byPackage.map Prod.fst).Nodup ∧
    (∀ k : String, k ∈ byPackage.map Prod.fst ↔ ∃ item ∈ its, packageKey item = some k) ∧
    (∀ kg ∈ byPackage, kg.2 ≠ [] ∧ kg.2.Sublist its ∧
      kg.2 = its.filter fun item => decide (packageKey item = some kg.1)) ∧
    (∀ x ∈ its, ∀ y ∈ its,
      (∃ kg ∈ byPackage, x ∈ kg.2 ∧ y ∈ kg.2) ↔ packageKey x = packageKey y) ∧
    (byPackage.flatMap Prod.snd).Perm its ∧
    (∀ (fs : FileSystem) (pkgs : List Package),
      packageWithVersions fs byPackage = Except.ok pkgs →
        (pkgs.map fun package => (package.path, package.files)) = ownEntries byPackage ∧
        (ownEntries byPackage).Perm byPackage ∧
        (pkgs.flatMap fun package => package.files).Perm its) := by
  have hall := filesByPackage_all h
  have hG := filesByPackage_ok h
  subst hG
  have hfilter : ∀ k : String,
      (its.filter fun item => decide ((packageKey item).getD "" = k))
        = its.filter fun item => decide (packageKey item = some k) := by
    intro k
    refine List.filter_congr fun x hx => ?_
    rw [decide_eq_decide]
    exact getD_eq_iff_of_isSome (hall x hx) k
  have hgroup : ∀ kg ∈ groupBy its (fun item => (packageKey item).getD ""),
      kg.2 = its.filter fun item => decide (packageKey item = some kg.1) := by
    intro kg hkg
    rw [(mem_groupBy.1 hkg).2, hfilter]
  have hkeys : ∀ k : String,
      k ∈ (groupBy its fun item => (packageKey item).getD "").map Prod.fst
        ↔ ∃ item ∈ its, packageKey item = some k := by
    intro k
    rw [keys_groupBy, mem_firstKeys, List.mem_map]
    constructor
    · rintro ⟨x, hx, hk⟩
      exact ⟨x, hx, (getD_eq_iff_of_isSome (hall x hx) k).1 hk⟩
    · rintro ⟨x, hx, hk⟩
      exact ⟨x, hx, (getD_eq_iff_of_isSome (hall x hx) k).2 hk⟩
  refine ⟨?_, hkeys, ?_, ?_, perm_flatMap_groupBy _ _, ?_⟩
  · rw [keys_groupBy]
    exact nodup_firstKeys _
  · intro kg hkg
    refine ⟨group_ne_nil hkg, ?_, hgroup kg hkg⟩
    rw [hgroup kg hkg]
    exact List.filter_sublist _
  · intro x hx y hy
    constructor
    · rintro ⟨kg, hkg, hxg, hyg⟩
      rw [hgroup kg hkg] at hxg hyg
      have e1 := (List.mem_filter.1 hxg).2
      have e2 := (List.mem_filter.1 hyg).2
      rw [decide_eq_true_eq] at e1 e2
      rw [e1, e2]
    · intro hxy
      obtain ⟨k, hk⟩ := Option.isSome_iff_exists.1 (hall x hx)
      obtain ⟨kg, hkg, hkg1⟩ := List.mem_map.1 ((hkeys k).2 ⟨x, hx, hk⟩)
      refine ⟨kg, hkg, ?_, ?_⟩
      · rw [hgroup kg hkg, hkg1]
        exact List.mem_filter.2 ⟨hx, by rw [decide_eq_true_eq]; exact hk⟩
      · rw [hgroup kg hkg, hkg1]
        exact List.mem_filter.2 ⟨hy, by rw [decide_eq_true_eq, ← hxy]; exact hk⟩
  · intro fs pkgs hp
    unfold packageWithVersions at hp
    refine ⟨readPackages_ok fs _ pkgs hp, perm_ownEntries _, ?_⟩
    rw [flatMap_files_of_readPackages hp]
    exact ((perm_ownEntries _).flatMap_right Prod.snd).trans (perm_flatMap_groupBy _ _)

/-- C12 (witness): two files of `react` around one file of `lodash` give two
groups, `react` with its two files in input order and `lodash` with one. -/
theorem C12_files_by_package_witness :
    filesByPackage interleavedEntries
      = Except.ok [("./node_modules/.pnpm/react@18.2.0/node_modules/react", reactPackage.files),
                   ("./node_modules/.pnpm/lodash@4.0.0/node_modules/lodash", [lodashEntry])] ∧
    ([("./node_modules/.pnpm/react@18.2.0/node_modules/react", reactPackage.files),
      ("./node_modules/.pnpm/lodash@4.0.0/node_modules/lodash", [lodashEntry])].flatMap
        Prod.snd).Perm interleavedEntries := by
  have h : filesByPackage interleavedEntries
      = Except.ok [("./node_modules/.pnpm/react@18.2.0/node_modules/react", reactPackage.files),
                   ("./node_modules/.pnpm/lodash@4.0.0/node_modules/lodash", [lodashEntry])] := by
    rfl
  exact ⟨h, (C12_files_by_package interleavedEntries _ h).2.2.2.2.1⟩

theorem takeWhile_append_stop {p : Char → Bool} {a b : List Char} (ha : ∀ x ∈ a, p x = true)
    (hb : ∀ x, b.head? = some x → p x = false) :
    (a ++ b).takeWhile p = a ∧ (a ++ b).dropWhile p = b := by
  induction a with
  | nil =>
    cases b with
    | nil => exact ⟨rfl, rfl⟩
    | cons x b =>
      have hx := hb x rfl
      simp [List.takeWhile, List.dropWhile, hx]
  | cons y a ih =>
    have hy : p y = true := ha y (List.mem_cons_self _ _)
    have := ih fun x hx => ha x (List.mem_cons_of_mem _ hx)
    simp [List.takeWhile, List.dropWhile, hy, this.1, this.2]

theorem stripLiteral_append (lit rest : List Char) : stripLiteral lit (lit ++ rest) = some rest := by
  unfold stripLiteral
  have h : lit.isPrefixOf (lit ++ rest) = true := by
    rw [List.isPrefixOf_iff_prefix]; exact List.prefix_append _ _
  rw [if_pos h, List.drop_left]

theorem stripLiteral_eq_some {lit s r : List Char} (h : stripLiteral lit s = some r) :
    s = lit ++ r := by
  unfold stripLiteral at h
  split at h
  · rename_i hp
    injection h with h
    rw [List.isPrefixOf_iff_prefix] at hp
    obtain ⟨t, rfl⟩ := hp
    rw [List.drop_left] at h
    rw [h]
  · cases h

theorem takeWhile_ne_nil_of_head {p : Char → Bool} {c : Char} (cs : List Char) (h : p c = true) :
    (c :: cs).takeWhile p ≠ [] := by
  simp [List.takeWhile, h]

theorem scopedName_of_scoped {scope name : List Char} (post : List Char) (hs : scope ≠ []) (hn : name ≠ [])
    (hsc : ∀ c ∈ scope, isNameChar c = true) (hnc : ∀ c ∈ name, isNameChar c = true) :
    ∃ n, scopedName ('@' :: (scope ++ '/' :: (name ++ post))) = some n := by
  have h1 := takeWhile_append_stop (p := isNameChar) (a := scope) (b := '/' :: (name ++ post))
    hsc (by intro x hx; injection hx with hx; subst hx; decide)
  obtain ⟨c, cs, rfl⟩ := List.exists_cons_of_ne_nil hn
  have h2 : ((c :: cs) ++ post).takeWhile isNameChar ≠ [] :=
    takeWhile_ne_nil_of_head _ (hnc c (List.mem_cons_self _ _))
  unfold scopedName
  simp only [h1.1, h1.2, hs, if_false, h2]
  exact ⟨_, rfl⟩

theorem scopedName_of_ne_at {c : Char} (cs : List Char) (h : c ≠ '@') :
    scopedName (c :: cs) = none := by
  unfold scopedName
  split
  · rename_i r heq
    injection heq with h1 _
    exact absurd h1 h
  · rfl

theorem packageDir_of_isPackageDir {pkg : List Char} (post : List Char) (h : IsPackageDir pkg) :
    ∃ n, packageDir (pkg ++ post) = some n := by
  rcases h with ⟨hne, hall⟩ | ⟨scope, name, rfl, hs, hn, hsc, hnc⟩
  · obtain ⟨c, cs, rfl⟩ := List.exists_cons_of_ne_nil hne
    have hc : isNameChar c = true := hall c (List.mem_cons_self _ _)
    have hat : c ≠ '@' := by
      rintro rfl
      exact absurd hc (by decide)
    have h2 : ((c :: cs) ++ post).takeWhile isNameChar ≠ [] := takeWhile_ne_nil_of_head _ hc
    unfold packageDir
    rw [List.cons_append, scopedName_of_ne_at _ hat]
    simp only
    rw [← List.cons_append, if_neg h2]
    exact ⟨_, rfl⟩
  · obtain ⟨n, hn2⟩ := scopedName_of_scoped post hs hn hsc hnc
    unfold packageDir
    have e : '@' :: (scope ++ '/' :: name) ++ post = '@' :: (scope ++ '/' :: (name ++ post)) := by
      simp
    rw [e, hn2]
    exact ⟨n, rfl⟩

theorem itemRegexAt_of_layout {key pkg : List Char} (post : List Char) (hk : key ≠ [])
    (hkc : ∀ c ∈ key, isKeyChar c = true) (hp : IsPackageDir pkg) :
    ∃ n, itemRegexAt ("./node_modules/.pnpm/".data ++
      (key ++ ("/node_modules/".data ++ (pkg ++ post)))) = some n := by
  have h1 := takeWhile_append_stop (p := isKeyChar) (a := key)
    (b := "/node_modules/".data ++ (pkg ++ post)) hkc
    (by intro x hx; injection hx with hx; subst hx; decide)
  obtain ⟨n, hn⟩ := packageDir_of_isPackageDir post hp
  unfold itemRegexAt
  rw [stripLiteral_append]
  simp only [h1.1, h1.2, hk, if_false, stripLiteral_append, hn]
  exact ⟨_, rfl⟩

theorem itemRegexExec_append {t : List Char} {n : Nat} (h : itemRegexAt t = some n) :
    ∀ pre : List Char, ∃ m, itemRegexExec (pre ++ t) = some m
  | [] => by
    cases t with
    | nil =>
      have e : itemRegexAt [] = none := rfl
      rw [e] at h
      cases h
    | cons c cs =>
      rw [List.nil_append, itemRegexExec, h]
      exact ⟨_, rfl⟩
  | p :: pre => by
    rw [List.cons_append, itemRegexExec]
    cases hp : itemRegexAt (p :: (pre ++ t)) with
    | some k => exact ⟨_, rfl⟩
    | none => exact itemRegexExec_append h pre

theorem isPackageDir_of_scopedName {s : List Char} {n : Nat} (h : scopedName s = some n) :
    ∃ pkg post, s = pkg ++ post ∧ IsPackageDir pkg := by
  unfold scopedName at h
  split at h
  · rename_i r
    simp only at h
    split at h
    · cases h
    · rename_i hscope
      split at h
      · rename_i r2 hdrop
        split at h
        · cases h
        · rename_i hname
          refine ⟨'@' :: (r.takeWhile isNameChar ++ '/' :: r2.takeWhile isNameChar),
            r2.dropWhile isNameChar, ?_, Or.inr ⟨_, _, rfl, hscope, hname, ?_, ?_⟩⟩
          · have e1 := List.takeWhile_append_dropWhile isNameChar r
            have e2 := List.takeWhile_append_dropWhile isNameChar r2
            rw [hdrop] at e1
            conv_lhs => rw [← e1, ← e2]
            simp
          · intro c hc; exact List.mem_takeWhile_imp hc
          · intro c hc; exact List.mem_takeWhile_imp hc
      · cases h
  · cases h

theorem isPackageDir_of_packageDir {s : List Char} {n : Nat} (h : packageDir s = some n) :
    ∃ pkg post, s = pkg ++ post ∧ IsPackageDir pkg := by
  unfold packageDir at h
  split at h
  · rename_i m hm
    exact isPackageDir_of_scopedName hm
  · simp only at h
    split at h
    · cases h
    · rename_i hname
      exact ⟨s.takeWhile isNameChar, s.dropWhile isNameChar,
        (List.takeWhile_append_dropWhile isNameChar s).symm,
        Or.inl ⟨hname, fun c hc => List.mem_takeWhile_imp hc⟩⟩

theorem layout_of_itemRegexAt {t : List Char} {n : Nat} (h : itemRegexAt t = some n) :
    ∃ key pkg post : List Char,
      t = "./node_modules/.pnpm/".data ++ (key ++ ("/node_modules/".data ++ (pkg ++ post)))
        ∧ key ≠ [] ∧ (∀ c ∈ key, isKeyChar c = true) ∧ IsPackageDir pkg := by
  unfold itemRegexAt at h
  split at h
  · cases h
  · rename_i r1 h1
    simp only at h
    split at h
    · cases h
    · rename_i hkey
      split at h
      · cases h
      · rename_i r2 h2
        split at h
        · cases h
        · rename_i m hm
          obtain ⟨pkg, post, hr2, hpkg⟩ := isPackageDir_of_packageDir hm
          refine ⟨r1.takeWhile isKeyChar, pkg, post, ?_, hkey,
            fun c hc => List.mem_takeWhile_imp hc, hpkg⟩
          rw [stripLiteral_eq_some h1, ← hr2, ← stripLiteral_eq_some h2,
            List.takeWhile_append_dropWhile]

theorem hasStoreLayout_of_itemRegexExec : ∀ (s : List Char) (m : List Char),
    itemRegexExec s = some m → HasStoreLayout s
  | [], m, h => by cases h
  | c :: cs, m, h => by
    rw [itemRegexExec] at h
    cases hat : itemRegexAt (c :: cs) with
    | some n =>
      obtain ⟨key, pkg, post, e, hk, hkc, hp⟩ := layout_of_itemRegexAt hat
      exact ⟨[], key, pkg, post, e, hk, hkc, hp⟩
    | none =>
      rw [hat] at h
      obtain ⟨pre, key, pkg, post, e, hk, hkc, hp⟩ := hasStoreLayout_of_itemRegexExec cs m h
      exact ⟨c :: pre, key, pkg, post, by rw [e]; rfl, hk, hkc, hp⟩

/-- The leftmost-match search finds a match exactly when the path contains one
in the declarative reading of the pattern. -/
theorem itemRegexExec_isSome_iff (s : List Char) :
    (itemRegexExec s).isSome = true ↔ HasStoreLayout s := by
  constructor
  · intro h
    obtain ⟨m, hm⟩ := Option.isSome_iff_exists.1 h
    exact hasStoreLayout_of_itemRegexExec s m hm
  · rintro ⟨pre, key, pkg, post, rfl, hk, hkc, hp⟩
    obtain ⟨n, hn⟩ := itemRegexAt_of_layout post hk hkc hp
    obtain ⟨m, hm⟩ := itemRegexExec_append hn pre
    rw [hm]
    rfl

theorem packageKey_isSome_iff (item : FileEntry) :
    (packageKey item).isSome = true ↔ HasStoreLayout item.path.data := by
  rw [← itemRegexExec_isSome_iff]
  unfold packageKey
  cases itemRegexExec item.path.data <;> simp

/-- C13: the grouping step fails, with the error of an unmatched entry, if and
only if at least one entry's path contains no match of the store-layout
pattern, and succeeds if and only if every entry's path contains one; on the
empty entry list it succeeds. -/
theorem C13_grouping_fails_iff :
    (∀ its : List FileEntry,
      filesByPackage its = Except.error Error.unresolvableEntry ↔
        ∃ item ∈ its, ¬ HasStoreLayout item.path.data) ∧
    (∀ its : List FileEntry,
      (∃ byPackage, filesByPackage its = Except.ok byPackage) ↔
        ∀ item ∈ its, HasStoreLayout item.path.data) ∧
    (∀ (its : List FileEntry) (e : Error),
      filesByPackage its = Except.error e → e = Error.unresolvableEntry) ∧
    filesByPackage [] = Except.ok [] := by
  have hall : ∀ its : List FileEntry,
      (its.all fun item => (packageKey item).isSome) = true
        ↔ ∀ item ∈ its, HasStoreLayout item.path.data := by
    intro its
    rw [List.all_eq_true]
    exact forall₂_congr fun item _ => packageKey_isSome_iff item
  refine ⟨?_, ?_, ?_, rfl⟩
  · intro its
    by_cases h : (its.all fun item => (packageKey item).isSome) = true
    · have hl := (hall its).1 h
      constructor
      · intro he
        unfold filesByPackage at he
        rw [if_pos h] at he
        cases he
      · rintro ⟨item, hi, hn⟩
        exact absurd (hl item hi) hn
    · constructor
      · intro _
        by_contra hne
        refine h ((hall its).2 fun item hi => ?_)
        by_contra hn
        exact hne ⟨item, hi, hn⟩
      · intro _
        unfold filesByPackage
        rw [if_neg h]
  · intro its
    by_cases h : (its.all fun item => (packageKey item).isSome) = true
    · constructor
      · intro _
        exact (hall its).1 h
      · intro _
        unfold filesByPackage
        rw [if_pos h]
        exact ⟨_, rfl⟩
    · constructor
      · rintro ⟨byPackage, hb⟩
        unfold filesByPackage at hb
        rw [if_neg h] at hb
        cases hb
      · intro hl
        exact absurd ((hall its).2 hl) h
  · intro its e he
    unfold filesByPackage at he
    split at he
    · cases he
    · injection he with he
      exact he.symm

/-! ## Theorems: the reconciliation steps case by case -/

theorem splitFrom_firstOccurrence {after : List Char} {n : Nat} :
    ∀ pre : List Char, FirstOccurrence pre after n →
      splitFrom (pre ++ after) 0 = pre :: splitFrom (after.drop n) 0
  | [], h => by
    cases after with
    | nil =>
      have e : concatenatedRegex [] = none := rfl
      have h1 := h.1
      rw [e] at h1
      cases h1
    | cons c cs => rw [List.nil_append, splitFrom_cons_of_match h.1]
  | p :: pre, h => by
    have h0 : concatenatedRegex (p :: (pre ++ after)) = none :=
      h.2 (p :: pre) (List.suffix_refl _) (List.cons_ne_nil _ _)
    have h1 : FirstOccurrence pre after n :=
      ⟨h.1, fun t ht hne => h.2 t (ht.trans (List.suffix_cons _ _)) hne⟩
    rw [List.cons_append, splitFrom_cons_of_noMatch h0, splitFrom_firstOccurrence pre h1]
    rfl

theorem splitRewrite_firstOccurrence {pre after between : List Char} {n : Nat}
    (h : FirstOccurrence pre after n) (hb : UpToNextOccurrence (after.drop n) between) :
    splitRewrite (pre ++ after) = if between ≠ [] then '.' :: between else pre := by
  unfold splitRewrite split
  rw [splitFrom_firstOccurrence pre h]
  rcases hb with ⟨hno, rfl⟩ | ⟨after2, m, hrest, h2⟩
  · rw [splitFrom_of_noMatch _ hno]
  · rw [hrest, splitFrom_firstOccurrence between h2]

theorem noMatch_of_tails {s : List Char}
    (h : (s.tails.all fun t => (concatenatedRegex t).isNone) = true) : NoMatch s := by
  intro t ht
  have := List.all_eq_true.1 h t ((List.mem_tails t s).2 ht)
  exact Option.isNone_iff_eq_none.1 this

theorem firstOccurrence_of_tails {pre after : List Char} {n : Nat}
    (h1 : concatenatedRegex after = some n)
    (h2 : (pre.tails.all fun t => t.isEmpty || (concatenatedRegex (t ++ after)).isNone) = true) :
    FirstOccurrence pre after n := by
  refine ⟨h1, fun t ht hne => ?_⟩
  have := List.all_eq_true.1 h2 t ((List.mem_tails t pre).2 ht)
  rw [Bool.or_eq_true] at this
  rcases this with h | h
  · exact absurd (List.isEmpty_iff.1 h) hne
  · exact Option.isNone_iff_eq_none.1 h

/-- C15: with `between` the text from the end of the first occurrence of the
concatenation marker to the next occurrence or to the end of the path, the
step returns `.` followed by `between` when `between` is non-empty and the
text before the first occurrence when it is empty; a path without an
occurrence is returned unchanged; the size is unchanged in all cases.  An
occurrence at a position is a text ` + <digits> modules (concatenated)` with
at least one digit. -/
theorem C15_split_and_rewrite_cases (pre after between : List Char) (n : Nat)
    (size : Option Int) (h : FirstOccurrence pre after n)
    (hb : UpToNextOccurrence (after.drop n) between) :
    (between ≠ [] →
      splitAndRewrite ⟨String.mk (pre ++ after), size⟩ = ⟨String.mk ('.' :: between), size⟩) ∧
    (between = [] →
      splitAndRewrite ⟨String.mk (pre ++ after), size⟩ = ⟨String.mk pre, size⟩) ∧
    (∀ path : String, NoMatch path.data → splitAndRewrite ⟨path, size⟩ = ⟨path, size⟩) ∧
    (∀ (t : List Char) (m : Nat), concatenatedRegex t = some m ↔
      ∃ ds rest, ds ≠ [] ∧ (∀ d ∈ ds, isDigit d = true) ∧
        t = " + ".data ++ (ds ++ (" modules (concatenated)".data ++ rest)) ∧
        m = 3 + ds.length + 23) := by
  have e := splitRewrite_firstOccurrence h hb
  refine ⟨?_, ?_, ?_, fun t m => concatenatedRegex_eq_some⟩
  · intro hne
    show FileEntry.mk (String.mk (splitRewrite (pre ++ after))) size = _
    rw [e, if_pos hne]
  · intro hnil
    show FileEntry.mk (String.mk (splitRewrite (pre ++ after))) size = _
    rw [e, if_neg (not_not.2 hnil)]
  · intro path hno
    show FileEntry.mk (String.mk (splitRewrite path.data)) size = _
    rw [splitRewrite_of_noMatch hno]

/-- C15 (witness): in `./a + 3 modules (concatenated) + ./b.js` the first
occurrence follows `./a`, the text after it is ` + ./b.js`, and the step
returns `. + ./b.js`. -/
theorem C15_split_and_rewrite_witness :
    FirstOccurrence "./a".data " + 3 modules (concatenated) + ./b.js".data 27 ∧
    UpToNextOccurrence (" + 3 modules (concatenated) + ./b.js".data.drop 27) " + ./b.js".data ∧
    splitAndRewrite ⟨"./a + 3 modules (concatenated) + ./b.js", some 7⟩
      = ⟨". + ./b.js", some 7⟩ := by
  have h1 : FirstOccurrence "./a".data " + 3 modules (concatenated) + ./b.js".data 27 :=
    firstOccurrence_of_tails (by rfl) (by rfl)
  have h2 : UpToNextOccurrence (" + 3 modules (concatenated) + ./b.js".data.drop 27)
      " + ./b.js".data :=
    Or.inl ⟨noMatch_of_tails (by rfl), rfl⟩
  exact ⟨h1, h2, (C15_split_and_rewrite_cases _ _ _ 27 (some 7) h1 h2).1 (by decide)⟩

theorem lazyNodeModules_first {rest : List Char} : ∀ pre : List Char,
    FirstNodeModules pre rest → (∀ c ∈ pre, isLineTerminator c = false) →
      lazyNodeModules (pre ++ ("node_modules".data ++ rest)) = some rest
  | [], _, _ => by
    have e : "node_modules".data ++ rest = 'n' :: ("ode_modules".data ++ rest) := rfl
    have h3 : "node_modules".data.isPrefixOf ("node_modules".data ++ rest) = true := by
      rw [List.isPrefixOf_iff_prefix]; exact List.prefix_append _ _
    rw [List.nil_append, e, lazyNodeModules, ← e, h3]
    rfl
  | c :: pre, h, hl => by
    have h0 : "node_modules".data.isPrefixOf (c :: (pre ++ ("node_modules".data ++ rest)))
        = false := by
      rw [Bool.eq_false_iff, ne_eq, List.isPrefixOf_iff_prefix]
      exact h (c :: pre) (List.suffix_refl _) (List.cons_ne_nil _ _)
    have h1 : isLineTerminator c = false := hl c (List.mem_cons_self _ _)
    have h2 : FirstNodeModules pre rest :=
      fun t ht hne => h t (ht.trans (List.suffix_cons _ _)) hne
    rw [List.cons_append, lazyNodeModules, h0, h1]
    simp only [Bool.false_eq_true, if_false]
    exact lazyNodeModules_first pre h2 fun x hx => hl x (List.mem_cons_of_mem _ hx)

/-- C16 (as stated, refuted): an entry whose path has a line break in front of
`node_modules` survives the dependency-tree filter and is left unchanged by
prefix normalisation, so its path does not start with `./node_modules`. -/
theorem C16_line_break_counterexample :
    inDependencyTree lineBreakEntry = true ∧
    items [lineBreakEntry] = [lineBreakEntry] ∧
    startsWith (normalise lineBreakEntry).path.data "./node_modules".data = false := by
  refine ⟨by rfl, by rfl, by rfl⟩

theorem firstNodeModules_of_tails {pre rest : List Char}
    (h : (pre.tails.all fun t =>
      t.isEmpty || !"node_modules".data.isPrefixOf (t ++ ("node_modules".data ++ rest))) = true) :
    FirstNodeModules pre rest := by
  intro t ht hne hp
  have := List.all_eq_true.1 h t ((List.mem_tails t pre).2 ht)
  rw [Bool.or_eq_true] at this
  rcases this with h1 | h1
  · exact hne (List.isEmpty_iff.1 h1)
  · rw [← List.isPrefixOf_iff_prefix] at hp
    rw [hp] at h1
    cases h1

/-- C16 (amended): when no line terminator stands before the first occurrence
of `node_modules` in the path of an entry, prefix normalisation yields
`./node_modules` followed by exactly the text after that occurrence and keeps
the size; the reconciled entries are the split-and-rewritten entries whose
path contains `./node_modules/.pnpm/`, in their order, each normalised. -/
theorem C16_filter_and_normalise (x : FileEntry) (pre rest : List Char)
    (hx : x.path.data = pre ++ ("node_modules".data ++ rest))
    (hfirst : FirstNodeModules pre rest) (hl : ∀ c ∈ pre, isLineTerminator c = false) :
    normalise x = ⟨String.mk ("./node_modules".data ++ rest), x.size⟩ ∧
    (∀ allItems : List FileEntry,
      items allItems = ((allItems.map splitAndRewrite).filter inDependencyTree).map normalise) ∧
    (∀ y : FileEntry,
      inDependencyTree y = true ↔ "./node_modules/.pnpm/".data <:+: y.path.data) ∧
    (∀ y : FileEntry, (normalise y).size = y.size) := by
  refine ⟨?_, ?_, fun y => includes_eq_true_iff _ _, fun y => rfl⟩
  · show FileEntry.mk (String.mk (replaceNodeModules x.path.data)) x.size = _
    rw [hx, replaceNodeModules_of_some (lazyNodeModules_first pre hfirst hl)]
  · intro allItems
    have e : (allItems.flatMap fun item => [splitAndRewrite item])
        = allItems.map splitAndRewrite := by
      induction allItems with
      | nil => rfl
      | cons a l ih => rw [List.flatMap_cons, ih]; rfl
    rw [items, e]

/-- C16 (witness): the path `../../node_modules/.pnpm/p@1.0.0/node_modules/p/index.js`
is normalised to `./node_modules/.pnpm/p@1.0.0/node_modules/p/index.js`. -/
theorem C16_filter_and_normalise_witness :
    FirstNodeModules "../../".data "/.pnpm/p@1.0.0/node_modules/p/index.js".data ∧
    normalise ⟨"../../node_modules/.pnpm/p@1.0.0/node_modules/p/index.js", some 10⟩
      = ⟨"./node_modules/.pnpm/p@1.0.0/node_modules/p/index.js", some 10⟩ := by
  have h1 : FirstNodeModules "../../".data "/.pnpm/p@1.0.0/node_modules/p/index.js".data :=
    firstNodeModules_of_tails (by rfl)
  exact ⟨h1, (C16_filter_and_normalise
    ⟨"../../node_modules/.pnpm/p@1.0.0/node_modules/p/index.js", some 10⟩ _ _ rfl h1
    (by decide)).1⟩

/-! ## Theorems: report loader -/

/-- C11 (as stated, refuted): the bundle `brokenReport` contains the marker
pattern, the captured text `[oops]` is rejected by the parser and the run
fails, but two lines have been written to standard output by then. -/
theorem C11_header_printed_counterexample :
    chartDataRegexExec (brokenReport.data.filter fun c => c ≠ '\n') = some "[oops]".data ∧
    brokenHost.jsonParse "[oops]" = none ∧
    (run brokenHost).result = Except.error Error.invalidJson ∧
    (run brokenHost).stdout
      = ["Analyzing browser bundle from .next/analyze/client.html.",
         "Sizes shown are for minified and tree-shaken files (before compression)."] ∧
    (run brokenHost).stdout ≠ [] := by
  refine ⟨by rfl, by rfl, by rfl, by decide, by decide⟩

/-- C11 (amended): whenever the marker pattern is present in the bundle but the
captured text is not valid JSON, the run fails with an error and the lines
written to standard output are exactly the two header lines. -/
theorem C11_malformed_payload (host : Host) (html : String) (dataRaw : List Char)
    (hread : host.readFileSync host.bundlePath = some html)
    (hmarker : chartDataRegexExec (html.data.filter fun c => c ≠ '\n') = some dataRaw)
    (hjson : host.jsonParse (String.mk dataRaw) = none) :
    (run host).result = Except.error Error.invalidJson ∧
    (run host).stdout
      = ["Analyzing browser bundle from " ++ host.bundlePath ++ ".",
         "Sizes shown are for minified and tree-shaken files (before compression)."] := by
  have h : dataParsed host = Except.error Error.invalidJson := by
    unfold dataParsed
    rw [hread]
    simp only
    rw [hmarker]
    simp only
    rw [hjson]
  refine ⟨?_, rfl⟩
  show (match dataParsed host with
    | Except.error e => Except.error e
    | Except.ok parsed => analyze host.fs parsed) = _
  rw [h]

/-- C11 (witness): the amended statement at `brokenHost`. -/
theorem C11_malformed_payload_witness :
    (run brokenHost).result = Except.error Error.invalidJson ∧
    (run brokenHost).stdout
      = ["Analyzing browser bundle from " ++ brokenHost.bundlePath ++ ".",
         "Sizes shown are for minified and tree-shaken files (before compression)."] :=
  C11_malformed_payload brokenHost brokenReport "[oops]".data (by rfl) (by rfl) (by rfl)

end BundleAnalyzer
